import Mathlib

/-!
Verification development for a signed-magnitude arbitrary-precision decimal
integer engine (`BigInt` in `src/big-integer/rust/src/lib.rs`).

The embedding mirrors the Rust code:
* `BigInt` is a sign flag (`positive`) plus a most-significant-first list of
  decimal digits (`value`), digits stored as `Int` (the Rust code stores `i8`;
  all intermediate digit arithmetic provably stays far inside the `i8` range).
* Rust `%` and `/` on `i8` truncate toward zero, so the embedding uses
  `Int.tmod` and `Int.tdiv`.
* The mutual sign-based delegation between addition and subtraction, and the
  self-recursion of division, do not structurally terminate on arbitrary
  (non-canonical) inputs — e.g. a negative-zero operand makes the Rust
  operators recurse forever — so those functions take an explicit fuel
  argument; theorems show the chosen fuel always suffices on canonical inputs.
* Loops that index a vector past its end (a Rust panic) are modelled by
  `Option`/result markers (`none`).
-/

structure BigInt where
  positive : Bool
  value : List Int
deriving DecidableEq, Repr

/-- Rust `BigInt::new("0")`, i.e. the canonical zero `{positive: true, value: [0]}`. -/
def zeroBig : BigInt := ⟨true, [0]⟩

/-- Rust `bool::cmp`: `false < true`. -/
def boolCmp : Bool → Bool → Ordering
  | false, false => Ordering.eq
  | false, true => Ordering.lt
  | true, false => Ordering.gt
  | true, true => Ordering.eq

/-- Rust lexicographic `Vec::cmp` on digit vectors. -/
def listCmp : List Int → List Int → Ordering
  | [], [] => Ordering.eq
  | [], _ :: _ => Ordering.lt
  | _ :: _, [] => Ordering.gt
  | a :: as_, b :: bs =>
    match compare a b with
    | Ordering.eq => listCmp as_ bs
    | o => o

/-- Rust `PartialOrd for BigInt::partial_cmp` (always returns `Some`, so the
embedding returns a plain `Ordering`): sign first (`false < true`), then
magnitude length, then lexicographic digit comparison. -/
def cmpBigInt (a b : BigInt) : Ordering :=
  let o1 := boolCmp a.positive b.positive
  if o1 ≠ Ordering.eq then o1
  else
    let o2 := compare a.value.length b.value.length
    if o2 ≠ Ordering.eq then o2
    else listCmp a.value b.value

/-- Rust `a < b` via `partial_cmp`, i.e. `Some(Less)`. -/
def bigLt (a b : BigInt) : Bool := cmpBigInt a b == Ordering.lt

/-- Rust `a >= b` via `partial_cmp`, i.e. `Some(Greater | Equal)`. -/
def bigGe (a b : BigInt) : Bool := cmpBigInt a b != Ordering.lt

/-- Rust `BigInt::trim_zero`: drain every leading zero digit (note: if the
whole vector is zero it is drained to the empty vector). -/
def trimZero (l : List Int) : List Int := l.dropWhile (fun d => d == 0)

/-- Rust `BigInt::set_zero_positive`. -/
def setZeroPositive (x : BigInt) : BigInt :=
  if x.value.length = 1 ∧ x.value.getD 0 0 = 0 then ⟨true, x.value⟩ else x

/-- Rust `BigInt::abs`. -/
def absB (x : BigInt) : BigInt := ⟨true, x.value⟩

/-- Rust `ops::Neg for BigInt`: flip the sign, except on a `[0]` magnitude. -/
def negB (x : BigInt) : BigInt :=
  if x.value = [0] then x else ⟨!x.positive, x.value⟩

/-- First aligned loop of Rust `ops::Add` (the `zip` over both operands,
right-aligned): the counter `j` walks the shorter operand from its last digit
down; the long-operand index is `off + j` with `off` the length difference. -/
def addLoop1 (lo sh : List Int) (off : Nat) : List Int → Nat → List Int
  | sum, 0 => sum
  | sum, j + 1 =>
    let i := off + j
    let k := i + 1
    let s := lo.getD i 0 + sh.getD j 0 + sum.getD k 0
    addLoop1 lo sh off ((sum.set k (s.tmod 10)).set i (s.tdiv 10)) j

/-- Second loop of Rust `ops::Add` (remaining high digits of the longer
operand): processes indices `e-1, …, 0`. -/
def addLoop2 (lo : List Int) : List Int → Nat → List Int
  | sum, 0 => sum
  | sum, i + 1 =>
    let k := i + 1
    let s := lo.getD i 0 + sum.getD k 0
    addLoop2 lo ((sum.set k (s.tmod 10)).set i (s.tdiv 10)) i

/-- First aligned loop of Rust `ops::Sub` (both operands, right-aligned).
Note the accumulator slot `i` is incremented (`+=`), not assigned. -/
def subLoop1 (p q : List Int) (off : Nat) : List Int → Nat → List Int
  | buf, 0 => buf
  | buf, j + 1 =>
    let i := off + j
    let k := i + 1
    let d := p.getD i 0 + buf.getD k 0 - q.getD j 0
    subLoop1 p q off ((buf.set k (d.tmod 10)).set i (buf.getD i 0 + d.tdiv 10)) j

/-- Second loop of Rust `ops::Sub` (remaining high digits of `self`). -/
def subLoop2 (p : List Int) : List Int → Nat → List Int
  | buf, 0 => buf
  | buf, i + 1 =>
    let k := i + 1
    let d := p.getD i 0 + buf.getD k 0
    subLoop2 p ((buf.set k (d.tmod 10)).set i (buf.getD i 0 + d.tdiv 10)) i

/-- The initial subtraction buffer of Rust `ops::Sub` for `self` length `n`:
`vec![9; n+1]` with slot 0 set to 0, slot 1 to -1 and slot `n` to 10. -/
def subBuf0 (n : Nat) : List Int :=
  (((List.replicate (n + 1) (9 : Int)).set 0 0).set 1 (-1)).set n 10

mutual

/-- Rust `ops::Add for BigInt`. Fueled: on signed-zero (non-canonical) inputs
the Rust operators `+`/`-` call each other forever, so the embedding spends
one unit of fuel per delegation; fuel 4 provably suffices on canonical input. -/
def addF : Nat → BigInt → BigInt → Option BigInt
  | 0, _, _ => none
  | fuel + 1, a, b =>
    if a.positive ≠ b.positive then
      if a.positive then subF fuel a (negB b) else subF fuel b (negB a)
    else
      let lo := if a.value.length < b.value.length then b.value else a.value
      let sh := if a.value.length < b.value.length then a.value else b.value
      let sum0 := List.replicate (lo.length + 1) (0 : Int)
      let s1 := addLoop1 lo sh (lo.length - sh.length) sum0 sh.length
      let s2 := addLoop2 lo s1 (lo.length - sh.length)
      some ⟨a.positive, trimZero s2⟩

/-- Rust `ops::Sub for BigInt` (fueled, see `addF`). -/
def subF : Nat → BigInt → BigInt → Option BigInt
  | 0, _, _ => none
  | fuel + 1, a, b =>
    if a = b then some zeroBig
    else if a.positive ≠ b.positive then
      if a.positive then addF fuel a (negB b) else (addF fuel b (negB a)).map negB
    else if a.value.length < b.value.length ∨
        (a.value.length = b.value.length ∧ listCmp a.value b.value = Ordering.lt) then
      (subF fuel (absB b) (absB a)).map (fun r => ⟨!a.positive, r.value⟩)
    else if a.positive = false then
      (subF fuel (absB a) (absB b)).map (fun r => ⟨false, r.value⟩)
    else if a.value.length = 1 then
      some ⟨true, [a.value.getD 0 0 - b.value.getD 0 0]⟩
    else
      let n := a.value.length
      let s1 := subLoop1 a.value b.value (n - b.value.length) (subBuf0 n) b.value.length
      let s2 := subLoop2 a.value s1 (n - b.value.length)
      some ⟨true, trimZero s2⟩

end

/-- Rust `a + b` with the fuel that suffices for every canonical input. -/
def addB (a b : BigInt) : Option BigInt := addF 4 a b

/-- Rust `a - b` with the fuel that suffices for every canonical input. -/
def subB (a b : BigInt) : Option BigInt := subF 4 a b

/-- One digit-pair step of Rust `ops::Mul`: accumulate `a[i]*b[j]` into buffer
position `i+j+1` and the carry into position `i+j`. -/
def mulStep (av bv : List Int) (i j : Nat) (buf : List Int) : List Int :=
  let p := av.getD i 0 * bv.getD j 0 + buf.getD (i + j + 1) 0
  let b1 := buf.set (i + j + 1) (p.tmod 10)
  b1.set (i + j) (b1.getD (i + j) 0 + p.tdiv 10)

/-- Inner loop of Rust `ops::Mul`: `j` from `bv.length - 1` down to 0. -/
def mulInner (av bv : List Int) (i : Nat) : Nat → List Int → List Int
  | 0, buf => buf
  | j + 1, buf => mulInner av bv i j (mulStep av bv i j buf)

/-- Outer loop of Rust `ops::Mul`: `i` from `av.length - 1` down to 0. -/
def mulOuter (av bv : List Int) : Nat → List Int → List Int
  | 0, buf => buf
  | i + 1, buf => mulOuter av bv i (mulInner av bv i bv.length buf)

/-- The accumulation buffer allocated by Rust `ops::Mul` in the general case:
`vec![0; self.value.len() + rhs.value.len()]`. -/
def mulBuffer (a b : BigInt) : List Int :=
  List.replicate (a.value.length + b.value.length) (0 : Int)

/-- Rust `ops::Mul for BigInt`. -/
def mulB (a b : BigInt) : BigInt :=
  if a = zeroBig ∨ b = zeroBig then zeroBig
  else
    let sign := a.positive == b.positive
    if a.value = [1] then ⟨sign, b.value⟩
    else if b.value = [1] then ⟨sign, a.value⟩
    else ⟨sign, trimZero (mulOuter a.value b.value a.value.length (mulBuffer a b))⟩

/-- Magnitude value of a most-significant-first digit list. -/
def valN (l : List Int) : Int := l.foldl (fun a d => 10 * a + d) 0

/-- Mathematical value of a `BigInt`. -/
def valB (x : BigInt) : Int := (if x.positive then 1 else -1) * valN x.value

/-- The remainder-building loop of Rust `ops::Div`: push dividend digits into
`diff` until `diff >= rhs`; running off the end of the dividend is a Rust
index panic, modelled as `none`. Returns the accumulated digits and the
unconsumed remainder of the dividend. -/
def buildDiff (rhs : BigInt) : List Int → List Int → Option (List Int × List Int)
  | [], _ => none
  | d :: rest, acc =>
    let acc2 := acc ++ [d]
    if bigGe ⟨true, acc2⟩ rhs then some (acc2, rest) else buildDiff rhs rest acc2

/-- The repeated-subtraction loop of Rust `ops::Div`: subtract `rhs` from
`diff` until `diff < rhs`, counting how many times (the quotient digit).
Fueled; fuel `valN diff + 1` provably suffices. -/
def subCount (rhs : BigInt) : Nat → BigInt → Int → Option (BigInt × Int)
  | 0, _, _ => none
  | f + 1, diff, c =>
    match subF 4 diff rhs with
    | none => none
    | some d2 => if bigLt d2 rhs then some (d2, c) else subCount rhs f d2 (c + 1)

/-- The zero-remainder shortcut of Rust `ops::Div`: emit a zero quotient digit
for every leading zero dividend digit; `Sum.inr` is the `break 'outer` exit
(dividend exhausted), `Sum.inl` stops at the first non-zero digit. -/
def zeroSkip : List Int → List Int → (List Int × List Int) ⊕ List Int
  | q, [] => Sum.inr q
  | q, d :: rest => if d = 0 then zeroSkip (q ++ [0]) rest else Sum.inl (q, d :: rest)

/-- The digit-append loop of Rust `ops::Div`: push the next dividend digit
onto `rest`; while `rest < rhs` emit a zero quotient digit; `Sum.inr` is the
`break 'outer` exit (dividend exhausted right after a zero emission),
`Sum.inl` the normal `break` once `rest >= rhs`. Entering with an exhausted
dividend would be a Rust index panic, modelled as `none`. -/
def appendLoop (rhs : BigInt) : List Int → List Int → List Int →
    Option ((List Int × List Int × List Int) ⊕ List Int)
  | _, _, [] => none
  | q, rest, d :: ds =>
    let rest2 := rest ++ [d]
    if bigLt ⟨true, rest2⟩ rhs then
      match ds with
      | [] => some (Sum.inr (q ++ [0]))
      | _ :: _ => appendLoop rhs (q ++ [0]) rest2 ds
    else some (Sum.inl (q, rest2, ds))

/-- The `'outer` long-division loop of Rust `ops::Div`, one fuel unit per
iteration; `q` is the quotient digit accumulator and `dv` the digits of the
current dividend. -/
def divLoop (rhs : BigInt) : Nat → List Int → List Int → Option (List Int)
  | 0, _, _ => none
  | f + 1, q, dv =>
    match buildDiff rhs dv [] with
    | none => none
    | some (dd, rem) =>
      match subCount rhs ((valN dd).toNat + 1) ⟨true, dd⟩ 1 with
      | none => none
      | some (diff, c) =>
        let q2 := q ++ [c]
        if rem = [] then some q2
        else if diff = zeroBig then
          match zeroSkip q2 rem with
          | Sum.inr q3 => some q3
          | Sum.inl (q3, rem2) =>
            match appendLoop rhs q3 [] rem2 with
            | none => none
            | some (Sum.inr q4) => some q4
            | some (Sum.inl (q4, rest2, rem3)) =>
              let newDv := rest2 ++ rem3
              if bigLt ⟨true, newDv⟩ rhs then some q4 else divLoop rhs f q4 newDv
        else
          match appendLoop rhs q2 diff.value rem with
          | none => none
          | some (Sum.inr q4) => some q4
          | some (Sum.inl (q4, rest2, rem3)) =>
            let newDv := rest2 ++ rem3
            if bigLt ⟨true, newDv⟩ rhs then some q4 else divLoop rhs f q4 newDv

/-- Result of Rust `ops::Div`: `divByZero` models the divisor-zero panic;
`bottom` models fuel exhaustion / the index panics inside the loop (proved
unreachable on canonical input). -/
inductive DivResult where
  | ok (q : BigInt)
  | divByZero
  | bottom
deriving DecidableEq, Repr

/-- Rust `ops::Div for BigInt`. The one unit of fuel covers the single
self-recursion `self.abs() / rhs.abs()` of the sign-reduction branch. -/
def divF : Nat → BigInt → BigInt → DivResult
  | 0, _, _ => DivResult.bottom
  | f + 1, a, b =>
    if b = zeroBig then DivResult.divByZero
    else
      let sign := a.positive == b.positive
      if b.value = [1] then DivResult.ok ⟨sign, a.value⟩
      else if a.value.length < b.value.length ∨
          (a.value.length = b.value.length ∧ listCmp a.value b.value = Ordering.lt) then
        DivResult.ok zeroBig
      else if a.value = b.value then DivResult.ok ⟨sign, [1]⟩
      else if !sign || !a.positive then
        match divF f (absB a) (absB b) with
        | DivResult.ok r => DivResult.ok ⟨sign, r.value⟩
        | e => e
      else
        match divLoop b ((valN a.value).toNat + 1) [] a.value with
        | some qd => DivResult.ok ⟨sign, qd⟩
        | none => DivResult.bottom

/-- Rust `a / b` with the fuel that suffices for every input. -/
def divB (a b : BigInt) : DivResult := divF 2 a b

/-- A digit list is a valid magnitude: digits in `[0, 9]`. -/
def DigitsOK (l : List Int) : Prop := ∀ d ∈ l, 0 ≤ d ∧ d ≤ 9

/-- Canonical magnitude: non-empty, digits in range, no leading zero unless
the magnitude is exactly `[0]`. -/
def CanonMag (l : List Int) : Prop :=
  l ≠ [] ∧ DigitsOK l ∧ (l.headI = 0 → l = [0])

/-- Canonical `BigInt`: canonical magnitude, and zero carries a positive sign. -/
def Canonical (x : BigInt) : Prop :=
  CanonMag x.value ∧ (x.value = [0] → x.positive = true)

instance : DecidablePred DigitsOK := fun l =>
  decidable_of_iff (∀ d ∈ l, 0 ≤ d ∧ d ≤ 9) Iff.rfl

instance : DecidablePred CanonMag := fun l => by
  unfold CanonMag; infer_instance

instance : DecidablePred Canonical := fun x => by
  unfold Canonical; infer_instance

/-- The zero-skipping `while` loop of Rust `BigInt::new`: how many leading
characters of the remaining text are the character zero. -/
def skipCount : List Char → Nat
  | [] => 0
  | c :: rest => if c = '0' then skipCount rest + 1 else 0

/-- The digit-conversion loop of Rust `BigInt::new`: convert the remaining
characters, failing (`IllegalArgument` panic, modelled as `none`) at the
first character outside the digit range. -/
def toDigitList : List Char → Option (List Int)
  | [] => some []
  | c :: rest =>
    if c < '0' ∨ '9' < c then none
    else (toDigitList rest).map (fun ds => ((c.toNat : Int) - 48) :: ds)

/-- Offset of the first digit candidate in Rust `BigInt::new`: 1 when the
first character is a `+` or `-` sign, else 0. -/
def signOffset (v : List Char) : Nat :=
  if v.head? = some '-' ∨ v.head? = some '+' then 1 else 0

/-- Rust `BigInt::new` on the character list of the input text; `none` models
the `IllegalArgument` panic. -/
def newB (v : List Char) : Option BigInt :=
  if v.length = 0 then none
  else
    let positive : Bool := if v.head? = some '-' then false else true
    let b0 := signOffset v
    let b1 := b0 + skipCount (v.drop b0)
    let b2 := if b1 = v.length then b1 - 1 else b1
    match toDigitList (v.drop b2) with
    | none => none
    | some ds => some (setZeroPositive ⟨positive, ds⟩)

/-- Rust `i8`'s `to_string`, as a character list. -/
def i8ToChars (d : Int) : List Char :=
  if d < 0 then '-' :: Nat.toDigits 10 (-d).toNat else Nat.toDigits 10 d.toNat

/-- Rust `Display for BigInt`: a minus sign when not positive, then every
digit rendered with `to_string` and concatenated. -/
def toDecimalChars (x : BigInt) : List Char :=
  (if x.positive then [] else ['-']) ++
    x.value.foldl (fun acc d => acc ++ i8ToChars d) []

/-- The spec's "canonical form" of a decimal text (§8/§6: sign omitted unless
negative, no leading zeros, "0" unsigned), stated on the text itself; this is
the spec-side definition a refinement theorem compares the code against. -/
def canonicalFormSpec (t : List Char) : List Char :=
  let ds := (t.drop (signOffset t)).dropWhile (fun c => c == '0')
  if ds = [] then ['0']
  else (if t.head? = some '-' then ['-'] else []) ++ ds

/-- Valid construction text per the spec (§4.1): an optional single leading
sign followed by one or more decimal digits. -/
def ValidText (t : List Char) : Prop :=
  ∃ s d, t = s ++ d ∧ (s = [] ∨ s = ['+'] ∨ s = ['-']) ∧ d ≠ [] ∧
    ∀ c ∈ d, '0' ≤ c ∧ c ≤ '9'

/-- Zero-pad a digit list on the left to length `n` (proof device: aligns the
shorter subtraction operand with the longer one). -/
def padLeft (n : Nat) (q : List Int) : List Int :=
  List.replicate (n - q.length) 0 ++ q

/-- The two subtraction loops of Rust `ops::Sub` unified over a pre-padded
subtrahend (proof device: `subLoop2 p (subLoop1 p q off buf q.length) off`
equals `subLoopU p (padLeft p.length q) buf p.length`). -/
def subLoopU (p qd : List Int) : List Int → Nat → List Int
  | buf, 0 => buf
  | buf, i + 1 =>
    let k := i + 1
    let d := p.getD i 0 + buf.getD k 0 - qd.getD i 0
    subLoopU p qd ((buf.set k (d.tmod 10)).set i (buf.getD i 0 + d.tdiv 10)) i

/-- Borrow indicator of schoolbook subtraction at cut position `t`: 1 when
the numeric value of `p`'s digit suffix from `t` is smaller than `qd`'s. -/
def borrowAt (p qd : List Int) (t : Nat) : Int :=
  if valN (p.drop t) < valN (qd.drop t) then 1 else 0

/-- Loop invariant for the unified subtraction loop (proof device).
After the iterations for indices `p.length - 1, …, t` have run, the buffer
holds: final digits above slot `t`, whose value is the suffix difference
adjusted by the pending borrow; the carry-adjusted sentinel in slot `t`; and
the untouched initial sentinels below. -/
def SubInv (p qd : List Int) (t : Nat) (buf : List Int) : Prop :=
  buf.length = p.length + 1 ∧
  (∀ m, t < m → m ≤ p.length → 0 ≤ buf.getD m 0 ∧ buf.getD m 0 ≤ 9) ∧
  valN (buf.drop (t + 1)) =
    valN (p.drop t) - valN (qd.drop t) + borrowAt p qd t * 10 ^ (p.length - t) ∧
  buf.getD t 0 = (if t = 1 then -borrowAt p qd 1 else 10 - borrowAt p qd t) ∧
  (∀ m, m < t → buf.getD m 0 = (if m = 0 then 0 else if m = 1 then -1 else 9))

example : addB zeroBig zeroBig = some ⟨true, []⟩ := by decide

example : divB zeroBig ⟨false, [1]⟩ = DivResult.ok ⟨false, [0]⟩ := by decide

example : divB ⟨true, [1, 0, 0]⟩ ⟨true, [3]⟩ = DivResult.ok ⟨true, [3, 3]⟩ := by decide

example : newB "-001234".toList = some ⟨false, [1, 2, 3, 4]⟩ := by decide

example : newB "0000".toList = some ⟨true, [0]⟩ := by decide

example : toDecimalChars ⟨false, [1, 2, 3, 4]⟩ = "-1234".toList := by decide

example : (newB "".toList).isNone ∧ (newB "a".toList).isNone ∧
    (newB "1234+".toList).isNone ∧ (newB "--1234".toList).isNone ∧
    (newB "++1234".toList).isNone ∧ (newB "+12.34".toList).isNone := by decide

theorem valN_go (a : Int) (l : List Int) :
    l.foldl (fun x d => 10 * x + d) a =
      a * 10 ^ l.length + l.foldl (fun x d => 10 * x + d) 0 := by
  induction l generalizing a with
  | nil => simp
  | cons d t ih =>
    simp only [List.foldl_cons, List.length_cons]
    rw [ih (10 * a + d), ih (10 * 0 + d)]; ring

theorem valN_cons (d : Int) (l : List Int) :
    valN (d :: l) = d * 10 ^ l.length + valN l := by
  simp only [valN, List.foldl_cons]
  rw [valN_go (10 * 0 + d)]; ring

theorem valN_append (x y : List Int) :
    valN (x ++ y) = valN x * 10 ^ y.length + valN y := by
  simp only [valN, List.foldl_append]
  rw [valN_go]

theorem valN_concat (l : List Int) (d : Int) : valN (l ++ [d]) = 10 * valN l + d := by
  rw [valN_append]; simp [valN]; ring

theorem digitsOK_cons {d : Int} {l : List Int} :
    DigitsOK (d :: l) ↔ (0 ≤ d ∧ d ≤ 9) ∧ DigitsOK l := by
  simp [DigitsOK]

theorem digitsOK_append {x y : List Int} :
    DigitsOK (x ++ y) ↔ DigitsOK x ∧ DigitsOK y := by
  simp only [DigitsOK, List.mem_append, or_imp, forall_and]
  tauto

theorem valN_nonneg {l : List Int} (h : DigitsOK l) : 0 ≤ valN l := by
  induction l with
  | nil => simp [valN]
  | cons d t ih =>
    rw [digitsOK_cons] at h
    rw [valN_cons]
    have hp : (0 : Int) ≤ 10 ^ t.length := by positivity
    have := ih h.2
    nlinarith [h.1.1]

theorem valN_lt_pow {l : List Int} (h : DigitsOK l) : valN l < 10 ^ l.length := by
  induction l with
  | nil => simp [valN]
  | cons d t ih =>
    rw [digitsOK_cons] at h
    rw [valN_cons, List.length_cons, pow_succ]
    have hp : (0 : Int) < 10 ^ t.length := by positivity
    have h1 := ih h.2
    have h2 := h.1.2
    nlinarith

theorem pow_le_valN {l : List Int} (h : DigitsOK l) (hne : l ≠ [])
    (hh : 1 ≤ l.headI) : 10 ^ (l.length - 1) ≤ valN l := by
  cases l with
  | nil => exact absurd rfl hne
  | cons d t =>
    rw [digitsOK_cons] at h
    simp only [List.headI] at hh
    rw [valN_cons, List.length_cons, Nat.add_sub_cancel]
    have := valN_nonneg h.2
    nlinarith [pow_pos (show (0:Int) < 10 by norm_num) t.length]

theorem canonMag_one_le {l : List Int} (h : CanonMag l) (hne : l ≠ [0]) :
    1 ≤ valN l := by
  obtain ⟨h1, h2, h3⟩ := h
  have hh : 1 ≤ l.headI := by
    have hmem : l.headI ∈ l := by
      cases l with
      | nil => exact absurd rfl h1
      | cons d t => simp [List.headI]
    have := (h2 _ hmem).1
    rcases lt_or_ge 0 l.headI with h | h
    · omega
    · exact absurd (h3 (by omega)) hne
  calc (1 : Int) = 10 ^ 0 := by norm_num
  _ ≤ 10 ^ (l.length - 1) := by
      apply pow_le_pow_right₀ (by norm_num) (Nat.zero_le _)
  _ ≤ valN l := pow_le_valN h2 h1 hh

theorem canonMag_valN_eq_zero {l : List Int} (h : CanonMag l) :
    valN l = 0 ↔ l = [0] := by
  constructor
  · intro hv
    by_contra hne
    have := canonMag_one_le h hne
    omega
  · rintro rfl; rfl

theorem valN_lt_of_length_lt {x y : List Int} (hx : CanonMag x) (hy : CanonMag y)
    (hl : x.length < y.length) : valN x < valN y := by
  have hx1 : 1 ≤ x.length := by
    cases x with
    | nil => exact absurd rfl hx.1
    | cons _ _ => simp
  have hyh : 1 ≤ y.headI := by
    have hmem : y.headI ∈ y := by
      cases y with
      | nil => exact absurd rfl hy.1
      | cons d t => simp [List.headI]
    have h0 := (hy.2.1 _ hmem).1
    rcases lt_or_ge 0 y.headI with h | h
    · omega
    · have h9 : y = [0] := hy.2.2 (by omega)
      rw [h9] at hl
      simp only [List.length_singleton] at hl
      omega
  calc valN x < 10 ^ x.length := valN_lt_pow hx.2.1
  _ ≤ 10 ^ (y.length - 1) := by
      apply pow_le_pow_right₀ (by norm_num) (by omega)
  _ ≤ valN y := pow_le_valN hy.2.1 hy.1 hyh

theorem listCmp_eq_iff {x y : List Int} : listCmp x y = Ordering.eq ↔ x = y := by
  induction x generalizing y with
  | nil => cases y <;> simp [listCmp]
  | cons a as_ ih =>
    cases y with
    | nil => simp [listCmp]
    | cons b bs =>
      simp only [listCmp]
      rcases lt_trichotomy a b with h | h | h
      · rw [compare_lt_iff_lt.mpr h]
        simp; intro h2; omega
      · subst h
        rw [compare_eq_iff_eq.mpr rfl]
        rw [ih]
        constructor
        · rintro rfl; rfl
        · intro h2; injection h2
      · rw [compare_gt_iff_gt.mpr h]
        simp; intro h2; omega

theorem valN_lt_of_head_lt {a b : Int} {as_ bs : List Int}
    (has : DigitsOK as_) (hbs : DigitsOK bs) (hlen : as_.length = bs.length)
    (hab : a < b) : valN (a :: as_) < valN (b :: bs) := by
  rw [valN_cons, valN_cons, ← hlen]
  have h1 := valN_lt_pow has
  have h2 := valN_nonneg hbs
  have hp : (0 : Int) < 10 ^ as_.length := by positivity
  nlinarith

theorem listCmp_valN {x y : List Int} (hx : DigitsOK x) (hy : DigitsOK y)
    (hlen : x.length = y.length) :
    listCmp x y = compare (valN x) (valN y) := by
  induction x generalizing y with
  | nil =>
    cases y with
    | nil => simp [listCmp, valN, compare_eq_iff_eq.mpr rfl]
    | cons b bs => simp at hlen
  | cons a as_ ih =>
    cases y with
    | nil => simp at hlen
    | cons b bs =>
      simp only [List.length_cons, Nat.add_right_cancel_iff] at hlen
      rw [digitsOK_cons] at hx hy
      simp only [listCmp]
      rcases lt_trichotomy a b with h | h | h
      · rw [compare_lt_iff_lt.mpr h,
          compare_lt_iff_lt.mpr (valN_lt_of_head_lt hx.2 hy.2 hlen h)]
      · subst h
        rw [compare_eq_iff_eq.mpr rfl, ih hx.2 hy.2 hlen]
        rcases lt_trichotomy (valN as_) (valN bs) with h2 | h2 | h2
        · rw [compare_lt_iff_lt.mpr h2, compare_lt_iff_lt.mpr (by
            rw [valN_cons, valN_cons, ← hlen]; omega)]
        · rw [compare_eq_iff_eq.mpr h2, compare_eq_iff_eq.mpr (by
            rw [valN_cons, valN_cons, ← hlen, h2])]
        · rw [compare_gt_iff_gt.mpr h2, compare_gt_iff_gt.mpr (by
            rw [valN_cons, valN_cons, ← hlen]; omega)]
      · rw [compare_gt_iff_gt.mpr h,
          compare_gt_iff_gt.mpr (valN_lt_of_head_lt hy.2 hx.2 hlen.symm h)]

theorem getD_set_self {l : List Int} {i : Nat} {v : Int} (h : i < l.length) :
    (l.set i v).getD i 0 = v := by
  simp [List.getD_eq_getElem?_getD, List.getElem?_set_self, h]

theorem getD_set_ne {l : List Int} {i j : Nat} {v : Int} (h : i ≠ j) :
    (l.set i v).getD j 0 = l.getD j 0 := by
  simp [List.getD_eq_getElem?_getD, List.getElem?_set_ne h]

theorem cmpBigInt_pos {a b : BigInt} (ha : Canonical a) (hb : Canonical b)
    (hpa : a.positive = true) (hpb : b.positive = true) :
    cmpBigInt a b = compare (valN a.value) (valN b.value) := by
  simp only [cmpBigInt, hpa, hpb, boolCmp]
  simp only [ne_eq, not_true_eq_false, if_false, reduceIte]
  rcases Nat.lt_trichotomy a.value.length b.value.length with h | h | h
  · rw [if_pos, Nat.compare_eq_lt.mpr h,
      compare_lt_iff_lt.mpr (valN_lt_of_length_lt ha.1 hb.1 h)]
    rw [Nat.compare_eq_lt.mpr h]; simp
  · rw [if_neg, listCmp_valN ha.1.2.1 hb.1.2.1 h]
    rw [Nat.compare_eq_eq.mpr h]; simp
  · rw [if_pos, Nat.compare_eq_gt.mpr h,
      compare_gt_iff_gt.mpr (valN_lt_of_length_lt hb.1 ha.1 h)]
    rw [Nat.compare_eq_gt.mpr h]; simp

theorem cmpBigInt_refl (a : BigInt) : cmpBigInt a a = Ordering.eq := by
  have h1 : boolCmp a.positive a.positive = Ordering.eq := by
    cases a.positive <;> rfl
  simp [cmpBigInt, h1, Nat.compare_eq_eq.mpr rfl, listCmp_eq_iff.mpr rfl]

theorem cmpBigInt_mixed {a b : BigInt} (hpa : a.positive = false)
    (hpb : b.positive = true) : cmpBigInt a b = Ordering.lt := by
  simp [cmpBigInt, hpa, hpb, boolCmp]

theorem cmpBigInt_mixed2 {a b : BigInt} (hpa : a.positive = true)
    (hpb : b.positive = false) : cmpBigInt a b = Ordering.gt := by
  simp [cmpBigInt, hpa, hpb, boolCmp]

theorem valB_pos {a : BigInt} (hp : a.positive = true) : valB a = valN a.value := by
  simp [valB, hp]

theorem valB_neg {a : BigInt} (hp : a.positive = false) : valB a = -valN a.value := by
  simp [valB, hp]

theorem valB_neg_lt_zero {a : BigInt} (ha : Canonical a) (hp : a.positive = false) :
    valB a < 0 := by
  rw [valB_neg hp]
  have hne : a.value ≠ [0] := by
    intro h
    rw [ha.2 h] at hp; exact Bool.true_eq_false.mp hp
  have := canonMag_one_le ha.1 hne
  omega

theorem valB_pos_nonneg {a : BigInt} (ha : Canonical a) (hp : a.positive = true) :
    0 ≤ valB a := by
  rw [valB_pos hp]
  exact valN_nonneg ha.1.2.1

theorem length_mulStep (av bv : List Int) (i j : Nat) (buf : List Int) :
    (mulStep av bv i j buf).length = buf.length := by
  simp [mulStep]

theorem length_mulInner (av bv : List Int) (i : Nat) (c : Nat) (buf : List Int) :
    (mulInner av bv i c buf).length = buf.length := by
  induction c generalizing buf with
  | zero => rfl
  | succ j ih => rw [mulInner, ih, length_mulStep]

theorem length_mulOuter (av bv : List Int) (c : Nat) (buf : List Int) :
    (mulOuter av bv c buf).length = buf.length := by
  induction c generalizing buf with
  | zero => rfl
  | succ i ih => rw [mulOuter, ih, length_mulInner]

/-- C1 counterexample: on the canonical pair `-5`, `-3` the code's `compare`
returns `greater` although `-5` is numerically smaller than `-3`, so `compare`
does not match mathematical value on every canonical pair. -/
theorem c1_compare_counterexample :
    Canonical ⟨false, [5]⟩ ∧ Canonical ⟨false, [3]⟩ ∧
    valB ⟨false, [5]⟩ < valB ⟨false, [3]⟩ ∧
    cmpBigInt ⟨false, [5]⟩ ⟨false, [3]⟩ = Ordering.gt := by decide

/-- C1 amended: `compare` is consistent with mathematical value on every pair
of canonical Integers in which at least one operand is non-negative (two
negative operands are ordered by magnitude, reversing the mathematical order),
and `compare(a,a) = equal` for every `a`. -/
theorem c1_compare_amended :
    (∀ a b : BigInt, Canonical a → Canonical b →
      (a.positive = true ∨ b.positive = true) →
      ((cmpBigInt a b = Ordering.lt ↔ valB a < valB b) ∧
       (cmpBigInt a b = Ordering.eq ↔ valB a = valB b) ∧
       (cmpBigInt a b = Ordering.gt ↔ valB b < valB a))) ∧
    (∀ a : BigInt, cmpBigInt a a = Ordering.eq) := by
  constructor
  · intro a b ha hb hor
    cases hpa : a.positive <;> cases hpb : b.positive
    · rcases hor with h | h
      · rw [hpa] at h; exact absurd h (by simp)
      · rw [hpb] at h; exact absurd h (by simp)
    · have hc := cmpBigInt_mixed hpa hpb
      have hv : valB a < valB b :=
        lt_of_lt_of_le (valB_neg_lt_zero ha hpa) (valB_pos_nonneg hb hpb)
      refine ⟨⟨fun _ => hv, fun _ => hc⟩, ⟨?_, ?_⟩, ⟨?_, ?_⟩⟩
      · intro h; rw [hc] at h; exact absurd h (by simp)
      · intro h; omega
      · intro h; rw [hc] at h; exact absurd h (by simp)
      · intro h; omega
    · have hc := cmpBigInt_mixed2 hpa hpb
      have hv : valB b < valB a :=
        lt_of_lt_of_le (valB_neg_lt_zero hb hpb) (valB_pos_nonneg ha hpa)
      refine ⟨⟨?_, ?_⟩, ⟨?_, ?_⟩, fun _ => hv, fun _ => hc⟩
      · intro h; rw [hc] at h; exact absurd h (by simp)
      · intro h; omega
      · intro h; rw [hc] at h; exact absurd h (by simp)
      · intro h; omega
    · rw [cmpBigInt_pos ha hb hpa hpb, valB_pos hpa, valB_pos hpb]
      exact ⟨compare_lt_iff_lt, compare_eq_iff_eq, compare_gt_iff_gt⟩
  · exact cmpBigInt_refl

/-- C1 witness: the amended comparison theorem applied at concrete canonical
inputs `2 < 10`, plus reflexivity at the canonical zero. -/
theorem c1_compare_witness :
    cmpBigInt ⟨true, [2]⟩ ⟨true, [1, 0]⟩ = Ordering.lt ∧
    cmpBigInt zeroBig zeroBig = Ordering.eq :=
  ⟨((c1_compare_amended.1 ⟨true, [2]⟩ ⟨true, [1, 0]⟩ (by decide) (by decide)
      (Or.inl rfl)).1).mpr (by decide),
   c1_compare_amended.2 zeroBig⟩

/-- C2 failing input: `add(0, 0)` on two canonical zeros returns a magnitude
of length 0 (the empty digit list), violating the invariant `length ≥ 1`;
`trim_zero` drains an all-zero digit vector completely. -/
theorem c2_add_zero_zero_empty_magnitude :
    Canonical zeroBig ∧ addB zeroBig zeroBig = some ⟨true, []⟩ ∧
    (⟨true, ([] : List Int)⟩ : BigInt).value.length = 0 := by decide

/-- C3 failing input: `div(0, -1)` takes the divisor-is-one fast path, which
copies the dividend magnitude and attaches the combined sign, producing the
signed zero `{positive: false, value: [0]}`. -/
theorem c3_div_zero_negone_signed_zero :
    Canonical zeroBig ∧ Canonical ⟨false, [1]⟩ ∧ valB ⟨false, [1]⟩ ≠ 0 ∧
    divB zeroBig ⟨false, [1]⟩ = DivResult.ok ⟨false, [0]⟩ ∧
    (⟨false, ([0] : List Int)⟩ : BigInt).positive = false := by decide

/-- C5 failing input: `add(0, 0)` does not return the canonical zero
`{positive: true, value: [0]}` but the non-canonical `{positive: true,
value: []}`, so zero is not an additive identity at `a = 0`. -/
theorem c5_add_zero_zero_not_zero :
    addB zeroBig zeroBig ≠ some zeroBig ∧
    addB zeroBig zeroBig = some ⟨true, []⟩ := by decide

/-- C9 counterexample: in the general multiplication case for the canonical
operands `12` and `34` the accumulation buffer has length 4, the sum of the
operand lengths, not the claimed sum plus one (5). -/
theorem c9_mul_buffer_counterexample :
    Canonical ⟨true, [1, 2]⟩ ∧ Canonical ⟨true, [3, 4]⟩ ∧
    mulB ⟨true, [1, 2]⟩ ⟨true, [3, 4]⟩ = ⟨true, [4, 0, 8]⟩ ∧
    (mulBuffer ⟨true, [1, 2]⟩ ⟨true, [3, 4]⟩).length = 4 ∧
    (⟨true, [1, 2]⟩ : BigInt).value.length +
      (⟨true, [3, 4]⟩ : BigInt).value.length + 1 = 5 := by decide

/-- C9 amended: the accumulation buffer is sized to the sum of the operands'
magnitude lengths (no extra slot), the whole loop works inside a buffer of
that size, and each digit pair `(i, j)` writes the digit product (plus the
previous slot content) modulo 10 into position `i+j+1` and adds the carry
onto position `i+j`, leaving every other position unchanged. -/
theorem c9_mul_buffer_amended :
    (∀ a b : BigInt, (mulBuffer a b).length = a.value.length + b.value.length) ∧
    (∀ av bv : List Int, ∀ c : Nat, ∀ buf : List Int,
      (mulOuter av bv c buf).length = buf.length) ∧
    (∀ av bv : List Int, ∀ i j : Nat, ∀ buf : List Int, i + j + 1 < buf.length →
      (mulStep av bv i j buf).getD (i + j + 1) 0 =
        (av.getD i 0 * bv.getD j 0 + buf.getD (i + j + 1) 0).tmod 10 ∧
      (mulStep av bv i j buf).getD (i + j) 0 =
        buf.getD (i + j) 0 +
          (av.getD i 0 * bv.getD j 0 + buf.getD (i + j + 1) 0).tdiv 10 ∧
      (∀ m, m ≠ i + j → m ≠ i + j + 1 →
        (mulStep av bv i j buf).getD m 0 = buf.getD m 0)) := by
  refine ⟨fun a b => by simp [mulBuffer], fun av bv c buf => length_mulOuter av bv c buf,
    fun av bv i j buf h => ⟨?_, ?_, ?_⟩⟩
  · rw [mulStep]
    rw [getD_set_ne (by omega), getD_set_self h]
  · rw [mulStep]
    rw [getD_set_self (by simp; omega), getD_set_ne (by omega)]
  · intro m h1 h2
    rw [mulStep]
    rw [getD_set_ne (by omega), getD_set_ne (by omega)]

/-- C9 witness: the amended buffer theorem applied at the concrete pair
`12 * 34`, first digit pair `(i, j) = (1, 1)`. -/
theorem c9_mul_buffer_witness :
    (mulStep [1, 2] [3, 4] 1 1 [0, 0, 0, 0]).getD 3 0 = 8 ∧
    (mulStep [1, 2] [3, 4] 1 1 [0, 0, 0, 0]).getD 2 0 = 0 := by
  have h := c9_mul_buffer_amended.2.2 [1, 2] [3, 4] 1 1 [0, 0, 0, 0] (by decide)
  exact ⟨by rw [h.1]; decide, by rw [h.2.1]; decide⟩

theorem canonical_valB_zero_iff {b : BigInt} (hb : Canonical b) :
    valB b = 0 ↔ b = zeroBig := by
  constructor
  · intro h
    have hv : valN b.value = 0 := by
      rw [valB] at h
      cases hp : b.positive <;> rw [hp] at h <;> simp at h <;> omega
    have h0 : b.value = [0] := (canonMag_valN_eq_zero hb.1).mp hv
    have hp : b.positive = true := hb.2 h0
    cases b with
    | mk p v => simp_all [zeroBig]
  · rintro rfl; rfl

theorem canonical_value_ne_zero {b : BigInt} (hb : Canonical b)
    (hne : b ≠ zeroBig) : b.value ≠ [0] := by
  intro h
  have hp := hb.2 h
  apply hne
  cases b with
  | mk p v =>
    simp only at hp h
    subst hp; subst h; rfl

theorem divF_ne_divByZero : ∀ (f : Nat) (a b : BigInt), b.value ≠ [0] →
    divF f a b ≠ DivResult.divByZero := by
  intro f
  induction f with
  | zero => intro a b _ h; exact absurd h (by simp [divF])
  | succ f ih =>
    intro a b hb h
    rw [divF] at h
    rw [if_neg (fun hz => hb (by rw [hz]; rfl))] at h

    by_cases h1 : b.value = [1]
    · simp only [h1, if_pos rfl] at h; exact absurd h (by simp)
    · rw [if_neg h1] at h
      by_cases h2 : a.value.length < b.value.length ∨
          (a.value.length = b.value.length ∧ listCmp a.value b.value = Ordering.lt)
      · rw [if_pos h2] at h; exact absurd h (by simp)
      · rw [if_neg h2] at h
        by_cases h3 : a.value = b.value
        · rw [if_pos h3] at h; exact absurd h (by simp)
        · rw [if_neg h3] at h
          by_cases h4 : (!(a.positive == b.positive) || !a.positive) = true
          · rw [if_pos h4] at h
            have hin := ih (absB a) (absB b) hb
            cases hv : divF f (absB a) (absB b) with
            | ok r => rw [hv] at h; exact absurd h (by simp)
            | divByZero => exact hin hv
            | bottom => rw [hv] at h; exact absurd h (by simp)
          · rw [if_neg h4] at h
            cases hv : divLoop b ((valN a.value).toNat + 1) [] a.value with
            | some qd => rw [hv] at h; exact absurd h (by simp)
            | none => rw [hv] at h; exact absurd h (by simp)

/-- C6: `div(a, b)` fails with `DivisionByZero` exactly when the divisor `b`
is the canonical zero (equivalently, for canonical `b`, when its value is 0);
the check is the first thing `div` does, before any quotient computation. -/
theorem c6_div_by_zero_iff (a b : BigInt) (hb : Canonical b) :
    divB a b = DivResult.divByZero ↔ valB b = 0 := by
  constructor
  · intro h
    by_cases hz : b = zeroBig
    · rw [hz]; rfl
    · exact absurd h (divF_ne_divByZero 2 a b (canonical_value_ne_zero hb hz))
  · intro h
    rw [(canonical_valB_zero_iff hb).mp h]
    rfl

/-- C6 witness: the theorem applied at the concrete dividend `7` and the
canonical zero divisor, and at the non-zero divisor `3`. -/
theorem c6_div_by_zero_witness :
    divB ⟨true, [7]⟩ zeroBig = DivResult.divByZero ∧
    divB ⟨true, [7]⟩ ⟨true, [3]⟩ ≠ DivResult.divByZero :=
  ⟨(c6_div_by_zero_iff ⟨true, [7]⟩ zeroBig (by decide)).mpr (by decide),
   fun h => by
    have := (c6_div_by_zero_iff ⟨true, [7]⟩ ⟨true, [3]⟩ (by decide)).mp h
    exact absurd this (by decide)⟩

theorem toDigitList_none_iff (l : List Char) :
    toDigitList l = none ↔ ¬(∀ c ∈ l, '0' ≤ c ∧ c ≤ '9') := by
  induction l with
  | nil => simp [toDigitList]
  | cons c r ih =>
    rw [toDigitList]
    by_cases hbad : c < '0' ∨ '9' < c
    · rw [if_pos hbad]
      simp only [true_iff]
      intro h
      have h2 := h c (List.mem_cons_self c r)
      rcases hbad with hb | hb
      · exact absurd h2.1 (not_le.mpr hb)
      · exact absurd h2.2 (not_le.mpr hb)
    · rw [if_neg hbad]
      push_neg at hbad
      have hc : '0' ≤ c ∧ c ≤ '9' := ⟨hbad.1, hbad.2⟩
      cases htl : toDigitList r with
      | none =>
        simp only [Option.map_none']
        simp only [true_iff]
        intro h
        exact (ih.mp htl) fun x hx => h x (List.mem_cons_of_mem c hx)
      | some ds =>
        simp only [Option.map_some']
        constructor
        · intro h; exact absurd h (by simp)
        · intro h
          exfalso
          apply h
          intro x hx
          have hallr : ∀ x ∈ r, '0' ≤ x ∧ x ≤ '9' := by
            by_contra hno
            rw [← ih] at hno
            rw [htl] at hno
            exact absurd hno (by simp)
          rcases List.mem_cons.mp hx with rfl | hx2
          · exact hc
          · exact hallr x hx2

theorem toDigitList_all (l : List Char) (h : ∀ c ∈ l, '0' ≤ c ∧ c ≤ '9') :
    toDigitList l = some (l.map fun c => (c.toNat : Int) - 48) := by
  induction l with
  | nil => rfl
  | cons c r ih =>
    rw [toDigitList, if_neg]
    · rw [ih fun x hx => h x (List.mem_cons_of_mem c hx)]
      rfl
    · have h2 := h c (List.mem_cons_self c r)
      push_neg
      exact ⟨h2.1, h2.2⟩

theorem skipCount_le (l : List Char) : skipCount l ≤ l.length := by
  induction l with
  | nil => simp [skipCount]
  | cons c r ih =>
    rw [skipCount]
    by_cases h : c = '0'
    · rw [if_pos h]; simp only [List.length_cons]; omega
    · rw [if_neg h]; simp

theorem drop_skipCount (l : List Char) :
    l.drop (skipCount l) = l.dropWhile (fun c => c == '0') := by
  induction l with
  | nil => rfl
  | cons c r ih =>
    rw [skipCount, List.dropWhile_cons]
    by_cases h : c = '0'
    · rw [if_pos h, if_pos (by simp [h])]
      simpa using ih
    · rw [if_neg h, if_neg (by simp [h])]
      rfl

theorem skipCount_eq_length_iff (l : List Char) :
    skipCount l = l.length ↔ ∀ c ∈ l, c = '0' := by
  induction l with
  | nil => simp [skipCount]
  | cons c r ih =>
    rw [skipCount]
    by_cases h : c = '0'
    · subst h
      rw [if_pos rfl]
      simp only [List.length_cons, Nat.add_right_cancel_iff, ih, List.mem_cons]
      constructor
      · intro hall x hx
        rcases hx with rfl | hx2
        · rfl
        · exact hall x hx2
      · intro hall x hx
        exact hall x (Or.inr hx)
    · rw [if_neg h]
      simp only [List.length_cons]
      constructor
      · intro h0; exact absurd h0.symm (by omega)
      · intro hall; exact absurd (hall c (List.mem_cons_self c r)) h

theorem all_digits_dropWhile_iff (l : List Char) :
    (∀ c ∈ l, '0' ≤ c ∧ c ≤ '9') ↔
      (∀ c ∈ l.dropWhile (fun c => c == '0'), '0' ≤ c ∧ c ≤ '9') := by
  constructor
  · intro h c hc
    exact h c (List.dropWhile_sublist (fun c => c == '0') |>.subset hc)
  · intro h c hc
    have hsplit := List.takeWhile_append_dropWhile (p := fun c => c == '0') (l := l)
    rw [← hsplit] at hc
    rcases List.mem_append.mp hc with h1 | h2
    · have := List.mem_takeWhile_imp h1
      have hc0 : c = '0' := by simpa using this
      rw [hc0]
      exact ⟨le_refl _, by decide⟩
    · exact h c h2

theorem signOffset_le_one (t : List Char) : signOffset t ≤ 1 := by
  rw [signOffset]; split <;> omega

theorem validText_iff (t : List Char) (ht : t ≠ []) :
    ValidText t ↔ (t.drop (signOffset t) ≠ [] ∧
      ∀ c ∈ t.drop (signOffset t), '0' ≤ c ∧ c ≤ '9') := by
  cases t with
  | nil => exact absurd rfl ht
  | cons c rest =>
    by_cases hsign : c = '-' ∨ c = '+'
    · have hso : signOffset (c :: rest) = 1 := by
        rcases hsign with h | h <;> simp [signOffset, h]
      rw [hso]
      simp only [List.drop_succ_cons, List.drop_zero]
      constructor
      · rintro ⟨s, d, heq, hs, hd, hdig⟩
        rcases hs with rfl | rfl | rfl
        · rw [List.nil_append] at heq
          subst heq
          have h2 := hdig c (List.mem_cons_self _ _)
          rcases hsign with rfl | rfl
          · exact absurd h2.1 (by decide)
          · exact absurd h2.1 (by decide)
        · rw [List.cons_append, List.nil_append] at heq
          injection heq with h1 h2
          subst h2
          exact ⟨hd, hdig⟩
        · rw [List.cons_append, List.nil_append] at heq
          injection heq with h1 h2
          subst h2
          exact ⟨hd, hdig⟩
      · rintro ⟨hne, hdig⟩
        rcases hsign with rfl | rfl
        · exact ⟨['-'], rest, rfl, Or.inr (Or.inr rfl), hne, hdig⟩
        · exact ⟨['+'], rest, rfl, Or.inr (Or.inl rfl), hne, hdig⟩
    · have hso : signOffset (c :: rest) = 0 := by
        rw [signOffset, if_neg]
        simpa using hsign
      rw [hso]
      simp only [List.drop_zero]
      constructor
      · rintro ⟨s, d, heq, hs, hd, hdig⟩
        rcases hs with rfl | rfl | rfl
        · rw [List.nil_append] at heq
          subst heq
          exact ⟨ht, hdig⟩
        · rw [List.cons_append, List.nil_append] at heq
          injection heq with h1 h2
          exact absurd (Or.inr h1) hsign
        · rw [List.cons_append, List.nil_append] at heq
          injection heq with h1 h2
          exact absurd (Or.inl h1) hsign
      · intro h
        exact ⟨[], c :: rest, rfl, Or.inl rfl, ht, h.2⟩

/-- C7: `construct` rejects the six spec examples, and in general fails with
`InvalidFormat` exactly on the texts that are not an optional single leading
sign followed by one or more decimal digits (this covers: empty text,
non-digit outside the leading sign, sign at a position other than 0, and more
than one sign). -/
theorem c7_construct_invalid_format :
    (newB "".toList = none ∧ newB "a".toList = none ∧
     newB "1234+".toList = none ∧ newB "--1234".toList = none ∧
     newB "++1234".toList = none ∧ newB "+12.34".toList = none) ∧
    (∀ t : List Char, newB t = none ↔ ¬ ValidText t) := by
  refine ⟨by decide, ?_⟩
  intro t
  by_cases ht : t = []
  · subst ht
    constructor
    · intro _
      rintro ⟨s, d, heq, hs, hd, hdig⟩
      rcases List.append_eq_nil.mp heq.symm with ⟨_, hd2⟩
      exact hd hd2
    · intro _; rfl
  · have hlen0 : ¬ t.length = 0 := fun h => ht (List.length_eq_zero.mp h)
    have hlenpos : 1 ≤ t.length := Nat.pos_of_ne_zero hlen0
    simp only [newB]
    rw [if_neg hlen0]
    have hb0le1 := signOffset_le_one t
    have htllen : (t.drop (signOffset t)).length = t.length - signOffset t :=
      List.length_drop _ _
    rw [validText_iff t ht]
    by_cases hall0 : signOffset t + skipCount (t.drop (signOffset t)) = t.length
    · rw [if_pos hall0]
      have hskle := skipCount_le (t.drop (signOffset t))
      have hsk : skipCount (t.drop (signOffset t)) = (t.drop (signOffset t)).length := by
        omega
      have hzeros := (skipCount_eq_length_iff _).mp hsk
      by_cases hemp : t.drop (signOffset t) = []
      · have hlen1 : t.length = 1 := by
          rw [hemp] at htllen
          simp only [List.length_nil] at htllen
          omega
        have hdl : (t.drop (signOffset t)).length = 0 := by rw [hemp]; rfl
        have hso : signOffset t = 1 := by omega
        have hhead : t.head? = some '-' ∨ t.head? = some '+' := by
          by_contra hno
          simp only [signOffset] at hso
          rw [if_neg hno] at hso
          exact absurd hso (by omega)
        obtain ⟨c, hc⟩ := List.length_eq_one.mp hlen1
        subst hc
        simp only [List.head?_cons, Option.some_inj] at hhead
        rcases hhead with rfl | rfl <;> decide
      · have htl1 : 1 ≤ (t.drop (signOffset t)).length :=
          List.length_pos.mpr hemp
        have hidx : signOffset t + skipCount (t.drop (signOffset t)) - 1 =
            t.length - 1 := by omega
        rw [hidx]
        have hdd : t.drop (t.length - 1) =
            (t.drop (signOffset t)).drop ((t.length - 1) - signOffset t) := by
          rw [List.drop_drop]
          congr 1
          omega
        have hulen : (t.drop (t.length - 1)).length = 1 := by
          rw [List.length_drop]; omega
        obtain ⟨cu, hcu⟩ := List.length_eq_one.mp hulen
        have hcumem : cu ∈ t.drop (signOffset t) := by
          have hmm : cu ∈ t.drop (t.length - 1) := by
            rw [hcu]; exact List.mem_singleton_self cu
          rw [hdd] at hmm
          exact List.drop_subset _ _ hmm
        have hcu0 : cu = '0' := hzeros cu hcumem
        rw [hcu, hcu0]
        rw [show toDigitList ['0'] = some [0] from by decide]
        constructor
        · intro h; exact absurd h (by simp)
        · intro h
          exfalso
          apply h
          refine ⟨hemp, ?_⟩
          intro x hx
          rw [hzeros x hx]
          exact ⟨le_refl _, by decide⟩
    · rw [if_neg hall0]
      have hskle := skipCount_le (t.drop (signOffset t))
      have hsklt : skipCount (t.drop (signOffset t)) <
          (t.drop (signOffset t)).length := by omega
      have htlne : t.drop (signOffset t) ≠ [] := by
        intro h; rw [h] at hsklt; simp at hsklt
      have hdrop2 : t.drop (signOffset t + skipCount (t.drop (signOffset t))) =
          (t.drop (signOffset t)).dropWhile (fun c => c == '0') := by
        rw [← drop_skipCount, List.drop_drop]
      rw [hdrop2]
      cases htd : toDigitList
          ((t.drop (signOffset t)).dropWhile (fun c => c == '0')) with
      | none =>
        constructor
        · intro _
          intro hcontra
          exact (toDigitList_none_iff _).mp htd
            ((all_digits_dropWhile_iff _).mp hcontra.2)
        · intro _; rfl
      | some ds =>
        constructor
        · intro h; exact absurd h (by simp)
        · intro h
          exfalso
          apply h
          refine ⟨htlne, ?_⟩
          have hall : ∀ c ∈ (t.drop (signOffset t)).dropWhile (fun c => c == '0'),
              '0' ≤ c ∧ c ≤ '9' := by
            by_contra hno
            rw [← toDigitList_none_iff] at hno
            rw [htd] at hno
            exact absurd hno (by simp)
          exact (all_digits_dropWhile_iff _).mpr hall

theorem i8ToChars_digit {c : Char} (h0 : '0' ≤ c) (h9 : c ≤ '9') :
    i8ToChars ((c.toNat : Int) - 48) = [c] := by
  have hn0 : 48 ≤ c.toNat := h0
  have hn9 : c.toNat ≤ 57 := h9
  rw [i8ToChars, if_neg (by omega)]
  have hd : ((c.toNat : Int) - 48).toNat = c.toNat - 48 := by omega
  rw [hd]
  have hm : c.toNat - 48 < 10 := by omega
  have htd : Nat.toDigits 10 (c.toNat - 48) = [Char.ofNat ((c.toNat - 48) + 48)] :=
    (by decide : ∀ m : Nat, m < 10 → Nat.toDigits 10 m = [Char.ofNat (m + 48)]) _ hm
  rw [htd]
  have h48 : c.toNat - 48 + 48 = c.toNat := by omega
  rw [h48, Char.ofNat_toNat]

theorem foldl_render_digits (l : List Char) (h : ∀ c ∈ l, '0' ≤ c ∧ c ≤ '9')
    (acc : List Char) :
    (l.map fun c => (c.toNat : Int) - 48).foldl
      (fun acc d => acc ++ i8ToChars d) acc = acc ++ l := by
  induction l generalizing acc with
  | nil => simp
  | cons c r ih =>
    simp only [List.map_cons, List.foldl_cons]
    rw [i8ToChars_digit (h c (List.mem_cons_self c r)).1 (h c (List.mem_cons_self c r)).2]
    rw [ih (fun x hx => h x (List.mem_cons_of_mem c hx))]
    simp

theorem setZeroPositive_single_zero (p : Bool) :
    setZeroPositive ⟨p, [0]⟩ = ⟨true, [0]⟩ := by
  rw [setZeroPositive, if_pos]
  exact ⟨rfl, rfl⟩

theorem setZeroPositive_of_ne (p : Bool) (l : List Int)
    (h : ¬(l.length = 1 ∧ l.getD 0 0 = 0)) : setZeroPositive ⟨p, l⟩ = ⟨p, l⟩ := by
  rw [setZeroPositive, if_neg h]

theorem char_ne_zero_toDig {c : Char} (h0 : '0' ≤ c) (hne : (c == '0') = false) :
    (c.toNat : Int) - 48 ≠ 0 := by
  intro h
  have hn0 : 48 ≤ c.toNat := h0
  have hc48 : c.toNat = 48 := by omega
  have hc : c = '0' := by
    calc c = Char.ofNat c.toNat := (Char.ofNat_toNat c).symm
    _ = Char.ofNat 48 := by rw [hc48]
    _ = '0' := by decide
  rw [hc] at hne
  exact absurd hne (by decide)

/-- C8: for every valid decimal text `t`, rendering the constructed Integer
gives the canonical form of `t` (sign prefix only when negative, no leading
zeros, "0" unsigned); in particular `construct("-001234")` renders as
`"-1234"` and `construct("0000")` renders as `"0"`. -/
theorem c8_construct_render_roundtrip :
    (∀ t : List Char, ValidText t →
      ∃ x, newB t = some x ∧ toDecimalChars x = canonicalFormSpec t) ∧
    newB "-001234".toList = some ⟨false, [1, 2, 3, 4]⟩ ∧
    toDecimalChars ⟨false, [1, 2, 3, 4]⟩ = "-1234".toList ∧
    newB "0000".toList = some ⟨true, [0]⟩ ∧
    toDecimalChars ⟨true, [0]⟩ = "0".toList := by
  refine ⟨?_, by decide, by decide, by decide, by decide⟩
  intro t hval
  have ht : t ≠ [] := by
    obtain ⟨s, d, heq, hs, hd, hdig⟩ := hval
    intro h
    rw [h] at heq
    rcases List.append_eq_nil.mp heq.symm with ⟨_, hd2⟩
    exact hd hd2
  obtain ⟨htlne, hdigits⟩ := (validText_iff t ht).mp hval
  have hlen0 : ¬ t.length = 0 := fun h => ht (List.length_eq_zero.mp h)
  have hlenpos : 1 ≤ t.length := Nat.pos_of_ne_zero hlen0
  have hb0le1 := signOffset_le_one t
  have htllen : (t.drop (signOffset t)).length = t.length - signOffset t :=
    List.length_drop _ _
  have htl1 : 1 ≤ (t.drop (signOffset t)).length := List.length_pos.mpr htlne
  have hskle := skipCount_le (t.drop (signOffset t))
  simp only [newB]
  rw [if_neg hlen0]
  simp only [canonicalFormSpec]
  by_cases hall0 : signOffset t + skipCount (t.drop (signOffset t)) = t.length
  · rw [if_pos hall0]
    have hsk : skipCount (t.drop (signOffset t)) = (t.drop (signOffset t)).length := by
      omega
    have hzeros := (skipCount_eq_length_iff _).mp hsk
    have hidx : signOffset t + skipCount (t.drop (signOffset t)) - 1 =
        t.length - 1 := by omega
    rw [hidx]
    have hdd : t.drop (t.length - 1) =
        (t.drop (signOffset t)).drop ((t.length - 1) - signOffset t) := by
      rw [List.drop_drop]
      congr 1
      omega
    have hulen : (t.drop (t.length - 1)).length = 1 := by
      rw [List.length_drop]; omega
    obtain ⟨cu, hcu⟩ := List.length_eq_one.mp hulen
    have hcumem : cu ∈ t.drop (signOffset t) := by
      have hmm : cu ∈ t.drop (t.length - 1) := by
        rw [hcu]; exact List.mem_singleton_self cu
      rw [hdd] at hmm
      exact List.drop_subset _ _ hmm
    have hcu0 : cu = '0' := hzeros cu hcumem
    rw [hcu, hcu0]
    rw [show toDigitList ['0'] = some [0] from by decide]
    refine ⟨⟨true, [0]⟩, ?_, ?_⟩
    · exact congrArg some (setZeroPositive_single_zero _)
    · have hds : (t.drop (signOffset t)).dropWhile (fun c => c == '0') = [] :=
        List.dropWhile_eq_nil_iff.mpr (fun x hx => by simp [hzeros x hx])
      rw [hds]
      rw [if_pos rfl]
      decide
  · rw [if_neg hall0]
    have hsklt : skipCount (t.drop (signOffset t)) <
        (t.drop (signOffset t)).length := by omega
    have hdrop2 : t.drop (signOffset t + skipCount (t.drop (signOffset t))) =
        (t.drop (signOffset t)).dropWhile (fun c => c == '0') := by
      rw [← drop_skipCount, List.drop_drop]
    rw [hdrop2]
    have hallds0 : ∀ c ∈ (t.drop (signOffset t)).dropWhile (fun c => c == '0'),
        '0' ≤ c ∧ c ≤ '9' := (all_digits_dropWhile_iff _).mp hdigits
    rw [toDigitList_all _ hallds0]
    have hds0len : 1 ≤ ((t.drop (signOffset t)).dropWhile (fun c => c == '0')).length := by
      rw [← drop_skipCount, List.length_drop]
      omega
    have hds0ne : (t.drop (signOffset t)).dropWhile (fun c => c == '0') ≠ [] := by
      intro h; rw [h] at hds0len; simp at hds0len
    have hsz : ¬((((t.drop (signOffset t)).dropWhile (fun c => c == '0')).map
        fun c => (c.toNat : Int) - 48).length = 1 ∧
        ((((t.drop (signOffset t)).dropWhile (fun c => c == '0')).map
          fun c => (c.toNat : Int) - 48).getD 0 0) = 0) := by
      cases hds : (t.drop (signOffset t)).dropWhile (fun c => c == '0') with
      | nil => exact absurd hds hds0ne
      | cons c rest =>
        have hcne : (c == '0') = false := by
          have hh := List.head?_dropWhile_not (fun c => c == '0') (t.drop (signOffset t))
          rw [hds] at hh
          simpa using hh
        have hc0 : '0' ≤ c := by
          have := hallds0 c (by rw [hds]; exact List.mem_cons_self c rest)
          exact this.1
        rintro ⟨h1, h2⟩
        simp only [List.map_cons, List.getD_cons_zero] at h2
        exact char_ne_zero_toDig hc0 hcne h2
    refine ⟨_, rfl, ?_⟩
    rw [setZeroPositive_of_ne _ _ hsz]
    rw [toDecimalChars]
    simp only
    rw [foldl_render_digits _ hallds0]
    rw [if_neg hds0ne]
    simp only [List.nil_append]
    by_cases hneg : t.head? = some '-'
    · rw [if_pos hneg, if_pos hneg]
      simp
    · rw [if_neg hneg, if_neg hneg]
      simp

/-- C7 witness: the characterization applied at the concrete invalid text
`"x"` (a non-digit with no sign). -/
theorem c7_construct_witness : newB ['x'] = none :=
  (c7_construct_invalid_format.2 ['x']).mpr (by
    rintro ⟨s, d, heq, hs, hd, hdig⟩
    rcases hs with rfl | rfl | rfl
    · rw [List.nil_append] at heq
      subst heq
      exact absurd (hdig 'x' (List.mem_cons_self _ _)).2 (by decide)
    · rw [List.cons_append, List.nil_append] at heq
      injection heq with h1 h2
      exact absurd h1 (by decide)
    · rw [List.cons_append, List.nil_append] at heq
      injection heq with h1 h2
      exact absurd h1 (by decide))

/-- C8 witness: the round-trip theorem applied at the concrete valid text
`"-001234"`. -/
theorem c8_construct_render_witness :
    ∃ x, newB "-001234".toList = some x ∧
      toDecimalChars x = canonicalFormSpec "-001234".toList :=
  c8_construct_render_roundtrip.1 "-001234".toList
    ⟨['-'], ['0', '0', '1', '2', '3', '4'], by decide,
      Or.inr (Or.inr rfl), by decide, by decide⟩

theorem digitsOK_getD {l : List Int} (h : DigitsOK l) (i : Nat) :
    0 ≤ l.getD i 0 ∧ l.getD i 0 ≤ 9 := by
  by_cases hi : i < l.length
  · rw [List.getD_eq_getElem l 0 hi]
    exact h _ (List.getElem_mem hi)
  · rw [List.getD_eq_default l 0 (by omega)]
    norm_num

theorem mem_of_getD {l : List Int} {x : Int} (h : x ∈ l) :
    ∃ m, m < l.length ∧ l.getD m 0 = x := by
  obtain ⟨m, hm, hx⟩ := List.mem_iff_getElem.mp h
  exact ⟨m, hm, by rw [List.getD_eq_getElem l 0 hm]; exact hx⟩

theorem valN_drop_succ {buf : List Int} {t : Nat} (h : t < buf.length) :
    valN (buf.drop t) =
      buf.getD t 0 * 10 ^ (buf.length - t - 1) + valN (buf.drop (t + 1)) := by
  have hd : buf.drop t = buf.getD t 0 :: buf.drop (t + 1) := by
    rw [List.drop_eq_getElem_cons h]
    simp [List.getD_eq_getElem?_getD, List.getElem?_eq_getElem h]
  rw [hd, valN_cons, List.length_drop]
  congr 2

theorem digitsOK_drop {l : List Int} (h : DigitsOK l) (t : Nat) :
    DigitsOK (l.drop t) :=
  fun d hd => h d (List.drop_subset t l hd)

theorem borrowAt_cases (p qd : List Int) (t : Nat) :
    borrowAt p qd t = 0 ∨ borrowAt p qd t = 1 := by
  rw [borrowAt]; split <;> simp

theorem borrowAt_last {p qd : List Int} (hq : qd.length = p.length) :
    borrowAt p qd p.length = 0 := by
  rw [borrowAt, List.drop_length, ← hq, List.drop_length]
  simp

theorem subLoopU_succ (p qd buf : List Int) (i : Nat) :
    subLoopU p qd buf (i + 1) =
      subLoopU p qd
        ((buf.set (i + 1) ((p.getD i 0 + buf.getD (i + 1) 0 - qd.getD i 0).tmod 10)).set i
          (buf.getD i 0 + (p.getD i 0 + buf.getD (i + 1) 0 - qd.getD i 0).tdiv 10)) i := rfl

theorem subLoop1_succ (p q : List Int) (off : Nat) (buf : List Int) (j : Nat) :
    subLoop1 p q off buf (j + 1) =
      subLoop1 p q off
        ((buf.set (off + j + 1)
            ((p.getD (off + j) 0 + buf.getD (off + j + 1) 0 - q.getD j 0).tmod 10)).set (off + j)
          (buf.getD (off + j) 0 +
            (p.getD (off + j) 0 + buf.getD (off + j + 1) 0 - q.getD j 0).tdiv 10)) j := rfl

theorem subLoop2_succ (p : List Int) (buf : List Int) (i : Nat) :
    subLoop2 p buf (i + 1) =
      subLoop2 p
        ((buf.set (i + 1) ((p.getD i 0 + buf.getD (i + 1) 0).tmod 10)).set i
          (buf.getD i 0 + (p.getD i 0 + buf.getD (i + 1) 0).tdiv 10)) i := rfl

theorem subLoopU_eq_loop2 (p qd : List Int) :
    ∀ (c : Nat) (buf : List Int), (∀ i, i < c → qd.getD i 0 = 0) →
      subLoopU p qd buf c = subLoop2 p buf c := by
  intro c
  induction c with
  | zero => intro buf _; rfl
  | succ i ih =>
    intro buf hq
    rw [subLoopU_succ, subLoop2_succ, hq i (by omega), sub_zero]
    exact ih _ (fun j hj => hq j (by omega))

theorem subLoopU_split (p q qd : List Int) (off : Nat)
    (h0 : ∀ i, i < off → qd.getD i 0 = 0)
    (hq : ∀ jj, qd.getD (off + jj) 0 = q.getD jj 0) :
    ∀ (j : Nat) (buf : List Int),
      subLoopU p qd buf (off + j) = subLoop2 p (subLoop1 p q off buf j) off := by
  intro j
  induction j with
  | zero => intro buf; exact subLoopU_eq_loop2 p qd off buf h0
  | succ j ih =>
    intro buf
    have hoj : off + (j + 1) = (off + j) + 1 := by omega
    rw [hoj, subLoopU_succ, subLoop1_succ, hq j]
    exact ih _

theorem getD_append_lt {x y : List Int} {i : Nat} (h : i < x.length) :
    (x ++ y).getD i 0 = x.getD i 0 := by
  simp [List.getD_eq_getElem?_getD, List.getElem?_append, h]

theorem getD_append_ge {x y : List Int} {i : Nat} (h : x.length ≤ i) :
    (x ++ y).getD i 0 = y.getD (i - x.length) 0 := by
  simp [List.getD_eq_getElem?_getD, List.getElem?_append, Nat.not_lt.mpr h]

theorem getD_replicate_lt {v : Int} {m i : Nat} (h : i < m) :
    (List.replicate m v).getD i 0 = v := by
  simp [List.getD_eq_getElem?_getD, List.getElem?_replicate, h]

theorem getD_oob {l : List Int} {i : Nat} (h : l.length ≤ i) : l.getD i 0 = 0 :=
  List.getD_eq_default l 0 h

theorem padLeft_length {q : List Int} {n : Nat} (h : q.length ≤ n) :
    (padLeft n q).length = n := by
  rw [padLeft, List.length_append, List.length_replicate]; omega

theorem padLeft_getD_lt {q : List Int} {n i : Nat} (h : i < n - q.length) :
    (padLeft n q).getD i 0 = 0 := by
  rw [padLeft, getD_append_lt (by rw [List.length_replicate]; omega)]
  exact getD_replicate_lt (by omega)

theorem padLeft_getD_ge {q : List Int} {n jj : Nat} :
    (padLeft n q).getD (n - q.length + jj) 0 = q.getD jj 0 := by
  rw [padLeft, getD_append_ge (by rw [List.length_replicate]; omega)]
  rw [List.length_replicate]
  congr 1
  omega

theorem padLeft_digitsOK {q : List Int} {n : Nat} (h : DigitsOK q) :
    DigitsOK (padLeft n q) := by
  rw [padLeft, digitsOK_append]
  refine ⟨fun d hd => ?_, h⟩
  rw [List.eq_of_mem_replicate hd]
  norm_num

theorem valN_replicate_zero (m : Nat) : valN (List.replicate m (0 : Int)) = 0 := by
  induction m with
  | zero => rfl
  | succ k ih => rw [List.replicate_succ, valN_cons, ih]; ring

theorem valN_padLeft (q : List Int) (n : Nat) : valN (padLeft n q) = valN q := by
  rw [padLeft, valN_append, valN_replicate_zero]; ring

theorem padLeft_drop_valN {q : List Int} {n : Nat} (h : q.length ≤ n) (t : Nat)
    (ht : t ≤ n - q.length) :
    valN ((padLeft n q).drop t) = valN q := by
  rw [padLeft, List.drop_append_of_le_length (by rw [List.length_replicate]; omega)]
  rw [valN_append, List.drop_replicate, valN_replicate_zero]
  ring

theorem subBuf0_length (n : Nat) : (subBuf0 n).length = n + 1 := by
  simp [subBuf0]

theorem subBuf0_getD_top {n : Nat} (hn : 2 ≤ n) : (subBuf0 n).getD n 0 = 10 := by
  rw [subBuf0, getD_set_self (by simp only [List.length_set, List.length_replicate]; omega)]

theorem subBuf0_getD_lt {n m : Nat} (hn : 2 ≤ n) (hm : m < n) :
    (subBuf0 n).getD m 0 = (if m = 0 then 0 else if m = 1 then -1 else 9) := by
  rw [subBuf0, getD_set_ne (by omega)]
  by_cases h1 : m = 1
  · subst h1
    rw [getD_set_self (by simp only [List.length_set, List.length_replicate]; omega)]
    simp
  · rw [getD_set_ne (by omega)]
    by_cases h0 : m = 0
    · subst h0
      rw [getD_set_self (by simp only [List.length_set, List.length_replicate]; omega)]
      simp
    · rw [getD_set_ne (by omega), getD_replicate_lt (by omega)]
      rw [if_neg h0, if_neg h1]

theorem cmp_digit_block {pi qi A B X : Int} (hX : 0 < X)
    (hA : 0 ≤ A) (hA2 : A < X) (hB : 0 ≤ B) (hB2 : B < X) :
    (pi * X + A < qi * X + B) ↔ (pi < qi ∨ (pi = qi ∧ A < B)) := by
  constructor
  · intro h
    rcases lt_trichotomy pi qi with h1 | h1 | h1
    · exact Or.inl h1
    · exact Or.inr ⟨h1, by nlinarith⟩
    · exfalso
      have h2 : qi + 1 ≤ pi := by omega
      nlinarith [mul_le_mul_of_nonneg_right h2 (le_of_lt hX)]
  · intro h
    rcases h with h1 | ⟨h1, h2⟩
    · have h2 : pi + 1 ≤ qi := by omega
      nlinarith [mul_le_mul_of_nonneg_right h2 (le_of_lt hX)]
    · subst h1
      linarith

theorem borrowAt_eq_zero {p qd : List Int} {t : Nat} :
    borrowAt p qd t = 0 ↔ ¬(valN (p.drop t) < valN (qd.drop t)) := by
  rw [borrowAt]
  split <;> simp_all

theorem borrowAt_eq_one {p qd : List Int} {t : Nat} :
    borrowAt p qd t = 1 ↔ valN (p.drop t) < valN (qd.drop t) := by
  rw [borrowAt]
  split <;> simp_all

theorem subInv_base {p qd : List Int} (hn : 2 ≤ p.length)
    (hq : qd.length = p.length) : SubInv p qd p.length (subBuf0 p.length) := by
  refine ⟨subBuf0_length _, ?_, ?_, ?_, ?_⟩
  · intro m h1 h2
    exact absurd h1 (by omega)
  · rw [List.drop_eq_nil_of_le (by rw [subBuf0_length]),
      List.drop_length, ← hq, List.drop_length, hq, borrowAt_last hq]
    simp [valN]
  · rw [subBuf0_getD_top hn, borrowAt_last hq, if_neg (by omega)]
    norm_num
  · intro m hm
    exact subBuf0_getD_lt hn hm

theorem subInv_step {p qd : List Int} (hp : DigitsOK p) (hqd : DigitsOK qd)
    (hlen : qd.length = p.length) {i : Nat} (hi1 : 1 ≤ i) (hin : i + 1 ≤ p.length)
    {buf : List Int} (hinv : SubInv p qd (i + 1) buf) :
    SubInv p qd i
      ((buf.set (i + 1) ((p.getD i 0 + buf.getD (i + 1) 0 - qd.getD i 0).tmod 10)).set i
        (buf.getD i 0 + (p.getD i 0 + buf.getD (i + 1) 0 - qd.getD i 0).tdiv 10)) := by
  obtain ⟨hL, hDig, hVal, hSlot, hInit⟩ := hinv
  have hX : (0 : Int) < 10 ^ (p.length - (i + 1)) := by positivity
  obtain ⟨hp0, hp9⟩ := digitsOK_getD hp i
  obtain ⟨hq0, hq9⟩ := digitsOK_getD hqd i
  have hbb := borrowAt_cases p qd (i + 1)
  have hread : buf.getD (i + 1) 0 = 10 - borrowAt p qd (i + 1) := by
    rw [hSlot, if_neg (by omega)]
  rw [hread]
  set d : Int := p.getD i 0 + (10 - borrowAt p qd (i + 1)) - qd.getD i 0 with hd
  have hdb : 0 ≤ d ∧ d ≤ 19 := by
    rcases hbb with h | h <;> omega
  have htd : d.tdiv 10 = d / 10 := Int.tdiv_eq_ediv hdb.1 (by norm_num)
  have htm : d.tmod 10 = d % 10 := Int.tmod_eq_emod hdb.1 (by norm_num)
  have hvp : valN (p.drop i) =
      p.getD i 0 * 10 ^ (p.length - (i + 1)) + valN (p.drop (i + 1)) := by
    have h0 := @valN_drop_succ p i (by omega)
    rw [h0]
    congr 2 <;> omega
  have hvq : valN (qd.drop i) =
      qd.getD i 0 * 10 ^ (p.length - (i + 1)) + valN (qd.drop (i + 1)) := by
    have h0 := @valN_drop_succ qd i (by omega)
    rw [h0, hlen]
    congr 2 <;> omega
  have hA0 : 0 ≤ valN (p.drop (i + 1)) := valN_nonneg (digitsOK_drop hp _)
  have hA2 : valN (p.drop (i + 1)) < 10 ^ (p.length - (i + 1)) := by
    have h0 := valN_lt_pow (digitsOK_drop hp (i + 1))
    rwa [List.length_drop] at h0
  have hB0 : 0 ≤ valN (qd.drop (i + 1)) := valN_nonneg (digitsOK_drop hqd _)
  have hB2 : valN (qd.drop (i + 1)) < 10 ^ (p.length - (i + 1)) := by
    have h0 := valN_lt_pow (digitsOK_drop hqd (i + 1))
    rwa [List.length_drop, hlen] at h0
  have key : valN (p.drop i) < valN (qd.drop i) ↔
      p.getD i 0 < qd.getD i 0 + borrowAt p qd (i + 1) := by
    rw [hvp, hvq, cmp_digit_block hX hA0 hA2 hB0 hB2]
    rcases hbb with h | h
    · rw [h]
      have h2 := borrowAt_eq_zero.mp h
      constructor
      · intro hc
        rcases hc with hc | ⟨hc, hc2⟩
        · omega
        · exact absurd hc2 h2
      · intro hc
        exact Or.inl (by omega)
    · rw [h]
      have h2 := borrowAt_eq_one.mp h
      constructor
      · intro hc
        rcases hc with hc | ⟨hc, _⟩ <;> omega
      · intro hc
        rcases lt_or_eq_of_le (by omega : p.getD i 0 ≤ qd.getD i 0) with hlt | heq
        · exact Or.inl hlt
        · exact Or.inr ⟨heq, h2⟩
  have hbi := borrowAt_cases p qd i
  have hcarry : d / 10 = 1 - borrowAt p qd i := by
    rcases hbi with h | h
    · rw [h]
      have h3 : ¬(valN (p.drop i) < valN (qd.drop i)) := borrowAt_eq_zero.mp h
      rw [key] at h3
      rcases hbb with h2 | h2 <;> omega
    · rw [h]
      have h3 : valN (p.drop i) < valN (qd.drop i) := borrowAt_eq_one.mp h
      rw [key] at h3
      rcases hbb with h2 | h2 <;> omega
  refine ⟨?_, ?_, ?_, ?_, ?_⟩
  · simp [List.length_set, hL]
  · intro m hm1 hm2
    by_cases hmi : m = i + 1
    · subst hmi
      rw [getD_set_ne (by omega), getD_set_self (by simp only [List.length_set, hL]; omega)]
      rw [htm]
      omega
    · rw [getD_set_ne (by omega), getD_set_ne (by omega)]
      exact hDig m (by omega) hm2
  · rw [List.drop_set_of_lt _ _ (by omega : i < i + 1)]
    have hlen2 : (buf.set (i + 1) (d.tmod 10)).length = p.length + 1 := by
      simp [List.length_set, hL]
    have hv2 := @valN_drop_succ (buf.set (i + 1) (d.tmod 10)) (i + 1)
      (by rw [hlen2]; omega)
    rw [hv2, hlen2]
    rw [getD_set_self (by rw [hL]; omega)]
    rw [show (buf.set (i + 1) (d.tmod 10)).drop (i + 1 + 1) = buf.drop (i + 1 + 1) from
      List.drop_set_of_lt _ _ (by omega)]
    rw [hVal]
    rw [hvp, hvq]
    have hpow : (10 : Int) ^ (p.length - i) = 10 ^ (p.length - (i + 1)) * 10 := by
      rw [← pow_succ]
      congr 1
      omega
    rw [hpow]
    have hexp : p.length + 1 - (i + 1) - 1 = p.length - (i + 1) := by omega
    rw [hexp]
    have htm2 : d.tmod 10 = d - 10 * (1 - borrowAt p qd i) := by
      rw [htm, Int.emod_def, hcarry]
    rw [htm2, hd]
    ring
  · rw [getD_set_self (by simp only [List.length_set, hL]; omega)]
    rw [htd, hcarry]
    have hbufi : buf.getD i 0 = (if i = 0 then 0 else if i = 1 then -1 else 9) :=
      hInit i (by omega)
    rw [hbufi]
    by_cases hi1' : i = 1
    · subst hi1'
      simp only [reduceIte]
      omega
    · rw [if_neg (by omega), if_neg hi1', if_neg hi1']
      ring
  · intro m hm
    rw [getD_set_ne (by omega), getD_set_ne (by omega)]
    exact hInit m (by omega)

theorem subLoopU_zero (p qd buf : List Int) : subLoopU p qd buf 0 = buf := rfl

theorem valN_singleton (x : Int) : valN [x] = x := by
  simp [valN]

theorem valN_trimZero (l : List Int) : valN (trimZero l) = valN l := by
  induction l with
  | nil => rfl
  | cons c r ih =>
    rw [trimZero, List.dropWhile_cons]
    by_cases h : c = 0
    · rw [if_pos (by simp [h])]
      rw [show List.dropWhile (fun d => d == 0) r = trimZero r from rfl, ih]
      rw [valN_cons, h]
      ring
    · rw [if_neg (by simp [h])]

theorem canonMag_inj {x y : List Int} (hx : CanonMag x) (hy : CanonMag y)
    (h : valN x = valN y) : x = y := by
  have hlen : x.length = y.length := by
    by_contra hne
    rcases Nat.lt_or_ge x.length y.length with h1 | h1
    · exact absurd h (ne_of_lt (valN_lt_of_length_lt hx hy h1))
    · rcases Nat.lt_or_ge y.length x.length with h2 | h2
      · exact absurd h.symm (ne_of_lt (valN_lt_of_length_lt hy hx h2))
      · omega
  have h2 := listCmp_valN hx.2.1 hy.2.1 hlen
  rw [compare_eq_iff_eq.mpr h] at h2
  exact listCmp_eq_iff.mp h2

theorem subLoopU_final {p qd : List Int} (hp : DigitsOK p) (hqd : DigitsOK qd)
    (hlen : qd.length = p.length) (hn : 2 ≤ p.length)
    (hge : valN qd ≤ valN p) {buf : List Int} (hinv : SubInv p qd 1 buf) :
    (subLoopU p qd buf 1).length = p.length + 1 ∧
    (subLoopU p qd buf 1).getD 0 0 = 0 ∧
    (∀ m, 1 ≤ m → m ≤ p.length → 0 ≤ (subLoopU p qd buf 1).getD m 0 ∧
      (subLoopU p qd buf 1).getD m 0 ≤ 9) ∧
    valN ((subLoopU p qd buf 1).drop 1) = valN p - valN qd := by
  obtain ⟨hL, hDig, hVal, hSlot, hInit⟩ := hinv
  have hX : (0 : Int) < 10 ^ (p.length - 1) := by positivity
  obtain ⟨hp0, hp9⟩ := digitsOK_getD hp 0
  obtain ⟨hq0, hq9⟩ := digitsOK_getD hqd 0
  have hbb := borrowAt_cases p qd 1
  have hread : buf.getD 1 0 = -borrowAt p qd 1 := by
    rw [hSlot, if_pos rfl]
  rw [show (1 : Nat) = 0 + 1 from rfl, subLoopU_succ, subLoopU_zero]
  rw [hread]
  set d : Int := p.getD 0 0 + -borrowAt p qd 1 - qd.getD 0 0 with hd
  have hvp : valN p = p.getD 0 0 * 10 ^ (p.length - 1) + valN (p.drop 1) := by
    have h0 := @valN_drop_succ p 0 (by omega)
    rw [List.drop_zero] at h0
    rw [h0]
    congr 2 <;> omega
  have hvq : valN qd = qd.getD 0 0 * 10 ^ (p.length - 1) + valN (qd.drop 1) := by
    have h0 := @valN_drop_succ qd 0 (by omega)
    rw [List.drop_zero, hlen] at h0
    rw [h0]
    congr 2 <;> omega
  have hA0 : 0 ≤ valN (p.drop 1) := valN_nonneg (digitsOK_drop hp _)
  have hA2 : valN (p.drop 1) < 10 ^ (p.length - 1) := by
    have h0 := valN_lt_pow (digitsOK_drop hp 1)
    rwa [List.length_drop] at h0
  have hB0 : 0 ≤ valN (qd.drop 1) := valN_nonneg (digitsOK_drop hqd _)
  have hB2 : valN (qd.drop 1) < 10 ^ (p.length - 1) := by
    have h0 := valN_lt_pow (digitsOK_drop hqd 1)
    rwa [List.length_drop, hlen] at h0
  have key : valN p < valN qd ↔ p.getD 0 0 < qd.getD 0 0 + borrowAt p qd 1 := by
    rw [hvp, hvq, cmp_digit_block hX hA0 hA2 hB0 hB2]
    rcases hbb with h | h
    · rw [h]
      have h2 := borrowAt_eq_zero.mp h
      constructor
      · intro hc
        rcases hc with hc | ⟨hc, hc2⟩
        · omega
        · exact absurd hc2 h2
      · intro hc
        exact Or.inl (by omega)
    · rw [h]
      have h2 := borrowAt_eq_one.mp h
      constructor
      · intro hc
        rcases hc with hc | ⟨hc, _⟩ <;> omega
      · intro hc
        rcases lt_or_eq_of_le (by omega : p.getD 0 0 ≤ qd.getD 0 0) with hlt | heq
        · exact Or.inl hlt
        · exact Or.inr ⟨heq, h2⟩
  have hnb : ¬(valN p < valN qd) := by omega
  rw [key] at hnb
  have hdb : 0 ≤ d ∧ d ≤ 9 := by
    rcases hbb with h | h <;> omega
  have htd : d.tdiv 10 = 0 := by
    rw [Int.tdiv_eq_ediv hdb.1 (by norm_num)]
    omega
  have htm : d.tmod 10 = d := by
    rw [Int.tmod_eq_emod hdb.1 (by norm_num)]
    omega
  have hb0 : buf.getD 0 0 = 0 := by
    have h0 := hInit 0 (by omega)
    simpa using h0
  refine ⟨?_, ?_, ?_, ?_⟩
  · simp [List.length_set, hL]
  · rw [getD_set_self (by simp only [List.length_set, hL]; omega)]
    rw [htd, hb0]
    ring
  · intro m hm1 hm2
    by_cases hm : m = 1
    · subst hm
      rw [getD_set_ne (by omega), getD_set_self (by rw [hL]; omega)]
      rw [htm]
      omega
    · rw [getD_set_ne (by omega), getD_set_ne (by omega)]
      exact hDig m (by omega) hm2
  · rw [List.drop_set_of_lt _ _ (by omega : 0 < 1)]
    have hlen2 : (buf.set 1 (d.tmod 10)).length = p.length + 1 := by
      simp [List.length_set, hL]
    have hv2 := @valN_drop_succ (buf.set 1 (d.tmod 10)) 1
      (by rw [hlen2]; omega)
    rw [hv2, hlen2]
    rw [getD_set_self (by rw [hL]; omega)]
    rw [show (buf.set 1 (d.tmod 10)).drop 2 = buf.drop 2 from
      List.drop_set_of_lt _ _ (by omega)]
    rw [show (1 : Nat) + 1 = 2 from rfl] at hVal
    rw [hVal, htm, hd, hvp, hvq]
    have hexp : p.length + 1 - 1 - 1 = p.length - 1 := by omega
    rw [hexp]
    have hexp2 : p.length - (1 : Nat) = p.length - 1 := rfl
    ring

theorem subLoopU_run {p qd : List Int} (hp : DigitsOK p) (hqd : DigitsOK qd)
    (hlen : qd.length = p.length) (hn : 2 ≤ p.length) (hge : valN qd ≤ valN p) :
    ∀ t, 1 ≤ t → t ≤ p.length → ∀ buf, SubInv p qd t buf →
      (subLoopU p qd buf t).length = p.length + 1 ∧
      (subLoopU p qd buf t).getD 0 0 = 0 ∧
      (∀ m, 1 ≤ m → m ≤ p.length → 0 ≤ (subLoopU p qd buf t).getD m 0 ∧
        (subLoopU p qd buf t).getD m 0 ≤ 9) ∧
      valN ((subLoopU p qd buf t).drop 1) = valN p - valN qd := by
  intro t
  induction t with
  | zero => intro h; exact absurd h (by omega)
  | succ s ih =>
    intro h1 h2 buf hinv
    by_cases hs : s = 0
    · subst hs
      exact subLoopU_final hp hqd hlen hn hge hinv
    · rw [subLoopU_succ]
      exact ih (by omega) (by omega) _ (subInv_step hp hqd hlen (by omega) (by omega) hinv)

theorem sub_main_buffer {P Q : List Int} (hP : CanonMag P) (hQ : CanonMag Q)
    (hge : valN Q ≤ valN P) (hn : 2 ≤ P.length) (hql : Q.length ≤ P.length) :
    (subLoop2 P (subLoop1 P Q (P.length - Q.length) (subBuf0 P.length) Q.length)
        (P.length - Q.length)).length = P.length + 1 ∧
    (subLoop2 P (subLoop1 P Q (P.length - Q.length) (subBuf0 P.length) Q.length)
        (P.length - Q.length)).getD 0 0 = 0 ∧
    (∀ m, 1 ≤ m → m ≤ P.length →
      0 ≤ (subLoop2 P (subLoop1 P Q (P.length - Q.length) (subBuf0 P.length) Q.length)
        (P.length - Q.length)).getD m 0 ∧
      (subLoop2 P (subLoop1 P Q (P.length - Q.length) (subBuf0 P.length) Q.length)
        (P.length - Q.length)).getD m 0 ≤ 9) ∧
    valN ((subLoop2 P (subLoop1 P Q (P.length - Q.length) (subBuf0 P.length) Q.length)
        (P.length - Q.length)).drop 1) = valN P - valN Q := by
  have hsplit := subLoopU_split P Q (padLeft P.length Q) (P.length - Q.length)
    (fun i hi => padLeft_getD_lt hi)
    (fun jj => by
      by_cases hj : jj < Q.length
      · exact padLeft_getD_ge
      · rw [getD_oob (by rw [padLeft_length hql]; omega), getD_oob (by omega)])
    Q.length (subBuf0 P.length)
  rw [show P.length - Q.length + Q.length = P.length from by omega] at hsplit
  rw [← hsplit]
  have hrun := subLoopU_run hP.2.1 (padLeft_digitsOK hQ.2.1)
    (padLeft_length hql) hn (by rw [valN_padLeft]; exact hge)
    P.length (by omega) (le_refl _) (subBuf0 P.length)
    (subInv_base hn (padLeft_length hql))
  rw [valN_padLeft] at hrun
  exact hrun

theorem canonMag_zero : CanonMag [0] := by
  refine ⟨by simp, ?_, fun _ => rfl⟩
  intro d hd
  simp only [List.mem_singleton] at hd
  omega

theorem canonMag_one_le_length {P : List Int} (hP : CanonMag P) : 1 ≤ P.length := by
  cases P with
  | nil => exact absurd rfl hP.1
  | cons _ _ => simp

theorem trimZero_canonMag {B : List Int} (hdig : DigitsOK B)
    (hval : 1 ≤ valN B) : CanonMag (trimZero B) ∧ valN (trimZero B) = valN B := by
  have hv := valN_trimZero B
  have hne : trimZero B ≠ [] := by
    intro h
    rw [h] at hv
    rw [show valN ([] : List Int) = 0 from rfl] at hv
    omega
  refine ⟨⟨hne, ?_, ?_⟩, hv⟩
  · intro d hd
    exact hdig d ((List.dropWhile_sublist _).subset hd)
  · intro habs
    cases htz : trimZero B with
    | nil => exact absurd htz hne
    | cons c rest =>
      have hh : (c == 0) = false := by
        have h2 := List.head?_dropWhile_not (fun d => d == 0) B
        rw [show B.dropWhile (fun d => d == 0) = trimZero B from rfl, htz] at h2
        simpa using h2
      rw [htz] at habs
      simp only [List.headI] at habs
      rw [habs] at hh
      exact absurd hh (by decide)

theorem subF_mag (f : Nat) {P Q : List Int} (hP : CanonMag P) (hQ : CanonMag Q)
    (hge : valN Q ≤ valN P) :
    ∃ r, subF (f + 1) ⟨true, P⟩ ⟨true, Q⟩ = some ⟨true, r⟩ ∧ CanonMag r ∧
      valN r = valN P - valN Q := by
  rcases eq_or_lt_of_le hge with heq | hlt
  · have hPQ : Q = P := canonMag_inj hQ hP heq
    subst hPQ
    refine ⟨[0], ?_, canonMag_zero, ?_⟩
    · rw [subF, if_pos rfl]
      rfl
    · rw [valN_singleton]
      omega
  · have hne : (⟨true, P⟩ : BigInt) ≠ ⟨true, Q⟩ := by
      intro h
      injection h with h1 h2
      rw [h2] at hlt
      exact lt_irrefl _ hlt
    have hnoswap : ¬(P.length < Q.length ∨
        (P.length = Q.length ∧ listCmp P Q = Ordering.lt)) := by
      rintro (h | ⟨h1, h2⟩)
      · exact absurd (valN_lt_of_length_lt hP hQ h) (by omega)
      · rw [listCmp_valN hP.2.1 hQ.2.1 h1] at h2
        exact absurd (compare_lt_iff_lt.mp h2) (by omega)
    have hq1 : 1 ≤ Q.length := canonMag_one_le_length hQ
    have hp1 : 1 ≤ P.length := canonMag_one_le_length hP
    have hql : Q.length ≤ P.length := by
      by_contra hc
      exact hnoswap (Or.inl (by omega))
    simp only [subF]
    rw [if_neg hne, if_neg (by simp), if_neg hnoswap, if_neg (by simp)]
    by_cases h1 : P.length = 1
    · rw [if_pos h1]
      have hQ1 : Q.length = 1 := by omega
      obtain ⟨p0, hp0⟩ := List.length_eq_one.mp h1
      obtain ⟨q0, hq0⟩ := List.length_eq_one.mp hQ1
      subst hp0
      subst hq0
      rw [valN_singleton, valN_singleton] at hlt
      have hpd := hP.2.1 p0 (List.mem_singleton_self p0)
      have hqd := hQ.2.1 q0 (List.mem_singleton_self q0)
      refine ⟨[p0 - q0], rfl, ⟨by simp, ?_, ?_⟩, ?_⟩
      · intro d hd
        simp only [List.mem_singleton] at hd
        omega
      · intro habs
        simp only [List.headI] at habs
        exact absurd habs (by omega)
      · rw [valN_singleton, valN_singleton, valN_singleton]
    · rw [if_neg h1]
      have hn2 : 2 ≤ P.length := by omega
      obtain ⟨hBlen, hB0, hBdig, hBval⟩ := sub_main_buffer hP hQ hge hn2 hql
      have hvalB : valN (subLoop2 P
          (subLoop1 P Q (P.length - Q.length) (subBuf0 P.length) Q.length)
          (P.length - Q.length)) = valN P - valN Q := by
        have h0 := @valN_drop_succ
          (subLoop2 P
            (subLoop1 P Q (P.length - Q.length) (subBuf0 P.length) Q.length)
            (P.length - Q.length)) 0 (by rw [hBlen]; omega)
        rw [List.drop_zero] at h0
        rw [h0, hB0, hBval]
        ring
      have hdigB : DigitsOK (subLoop2 P
          (subLoop1 P Q (P.length - Q.length) (subBuf0 P.length) Q.length)
          (P.length - Q.length)) := by
        intro x hx
        obtain ⟨m, hm, hgd⟩ := mem_of_getD hx
        rw [hBlen] at hm
        by_cases hm0 : m = 0
        · subst hm0
          rw [hB0] at hgd
          omega
        · have := hBdig m (by omega) (by omega)
          rw [hgd] at this
          exact this
      obtain ⟨hc1, hc2⟩ := trimZero_canonMag hdigB (by omega)
      refine ⟨_, rfl, hc1, ?_⟩
      rw [hc2, hvalB]

theorem ordering_beq_lt (o : Ordering) : (o == Ordering.lt) = true ↔ o = Ordering.lt := by
  cases o <;> decide

theorem ordering_bne_lt (o : Ordering) : (o != Ordering.lt) = true ↔ o ≠ Ordering.lt := by
  cases o <;> decide

theorem bigLt_iff {x y : List Int} (hx : CanonMag x) (hy : CanonMag y) :
    bigLt ⟨true, x⟩ ⟨true, y⟩ = true ↔ valN x < valN y := by
  rw [bigLt, cmpBigInt_pos (a := ⟨true, x⟩) (b := ⟨true, y⟩)
    ⟨hx, fun _ => rfl⟩ ⟨hy, fun _ => rfl⟩ rfl rfl]
  rw [ordering_beq_lt]
  exact compare_lt_iff_lt

theorem bigGe_iff {x y : List Int} (hx : CanonMag x) (hy : CanonMag y) :
    bigGe ⟨true, x⟩ ⟨true, y⟩ = true ↔ valN y ≤ valN x := by
  rw [bigGe, cmpBigInt_pos (a := ⟨true, x⟩) (b := ⟨true, y⟩)
    ⟨hx, fun _ => rfl⟩ ⟨hy, fun _ => rfl⟩ rfl rfl]
  rw [ordering_bne_lt]
  constructor
  · intro h
    rcases lt_or_ge (valN x) (valN y) with h2 | h2
    · exact absurd (compare_lt_iff_lt.mpr h2) h
    · exact h2
  · intro h h2
    have h3 : compare (valN x) (valN y) = Ordering.lt := h2
    exact absurd (compare_lt_iff_lt.mp h3) (by omega)

theorem headI_append_left {x y : List Int} (h : x ≠ []) :
    (x ++ y).headI = x.headI := by
  cases x with
  | nil => exact absurd rfl h
  | cons c r => rfl

theorem canonMag_length_eq {l : List Int} (h : CanonMag l) (hh : l.headI ≠ 0)
    {j : Nat} (h1 : 10 ^ j ≤ valN l) (h2 : valN l < 10 ^ (j + 1)) :
    l.length = j + 1 := by
  have hh1 : 1 ≤ l.headI := by
    have hmem : l.headI ∈ l := by
      cases l with
      | nil => exact absurd rfl h.1
      | cons c r => simp [List.headI]
    have := (h.2.1 _ hmem).1
    omega
  have low : 10 ^ (l.length - 1) ≤ valN l := pow_le_valN h.2.1 h.1 hh1
  have high : valN l < 10 ^ l.length := valN_lt_pow h.2.1
  have e1 : j < l.length :=
    (pow_lt_pow_iff_right₀ (by norm_num : (1 : Int) < 10)).mp (lt_of_le_of_lt h1 high)
  have e2 : l.length - 1 < j + 1 :=
    (pow_lt_pow_iff_right₀ (by norm_num : (1 : Int) < 10)).mp (lt_of_le_of_lt low h2)
  omega

theorem div_digit_bounds {pre b : Int} (hb : 0 < b) (h1 : b ≤ pre)
    (h2 : pre < 10 * b) :
    1 ≤ pre / b ∧ pre / b ≤ 9 ∧ 0 ≤ pre % b ∧ pre % b < b ∧
      pre = b * (pre / b) + pre % b := by
  have hm0 : 0 ≤ pre % b := Int.emod_nonneg pre (by omega)
  have hm1 : pre % b < b := Int.emod_lt_of_pos pre hb
  have heq : pre = b * (pre / b) + pre % b := by
    have := Int.ediv_add_emod pre b
    omega
  refine ⟨?_, ?_, hm0, hm1, heq⟩
  · by_contra hc
    push_neg at hc
    have : pre / b ≤ 0 := by omega
    nlinarith
  · by_contra hc
    push_neg at hc
    have : 10 ≤ pre / b := by omega
    nlinarith

theorem canonMag_two_le {B : List Int} (hB : CanonMag B) (h0 : B ≠ [0])
    (h1 : B ≠ [1]) : 2 ≤ valN B := by
  rcases Nat.lt_or_ge B.length 2 with hl | hl
  · have hl1 : B.length = 1 := by
      have := canonMag_one_le_length hB
      omega
    obtain ⟨d, hd⟩ := List.length_eq_one.mp hl1
    subst hd
    rw [valN_singleton]
    have hdig := hB.2.1 d (List.mem_singleton_self d)
    have hd0 : d ≠ 0 := fun h => h0 (by rw [h])
    have hd1 : d ≠ 1 := fun h => h1 (by rw [h])
    omega
  · calc (2 : Int) ≤ 10 ^ 1 := by norm_num
    _ ≤ 10 ^ (B.length - 1) := by
        apply pow_le_pow_right₀ (by norm_num)
        omega
    _ ≤ valN B := by
        apply pow_le_valN hB.2.1 hB.1
        have hmem : B.headI ∈ B := by
          cases B with
          | nil => exact absurd rfl hB.1
          | cons c r => simp [List.headI]
        have := (hB.2.1 _ hmem).1
        have hne : B.headI ≠ 0 := by
          intro h
          have := hB.2.2 h
          rw [this] at hl
          simp at hl
        omega

theorem valN_replicate_append (z : Nat) (l : List Int) :
    valN (List.replicate z (0 : Int) ++ l) = valN l := by
  rw [valN_append, valN_replicate_zero]
  ring

theorem buildDiff_go {bv : List Int} (hbv : CanonMag bv) :
    ∀ (l acc : List Int), CanonMag (acc ++ l) → valN acc < valN bv →
      valN bv ≤ valN (acc ++ l) →
      ∃ pre rest, buildDiff ⟨true, bv⟩ l acc = some (pre, rest) ∧
        acc ++ l = pre ++ rest ∧ CanonMag pre ∧ valN bv ≤ valN pre ∧
        valN pre < 10 * valN bv := by
  intro l
  induction l with
  | nil =>
    intro acc hcm hlt hge
    rw [List.append_nil] at hge
    exact absurd hge (by omega)
  | cons d rest ih =>
    intro acc hcm hlt hge
    have hdigall : DigitsOK (acc ++ d :: rest) := hcm.2.1
    have hdacc : DigitsOK acc := (digitsOK_append.mp hdigall).1
    have hdd : 0 ≤ d ∧ d ≤ 9 :=
      (digitsOK_append.mp hdigall).2 d (List.mem_cons_self d rest)
    have hb1 : 1 ≤ valN bv := by
      have := valN_nonneg hdacc
      omega
    have hheadne : (acc ++ d :: rest).headI ≠ 0 := by
      intro h
      have h2 := hcm.2.2 h
      rw [h2, valN_singleton] at hge
      omega
    have hacc2 : CanonMag (acc ++ [d]) := by
      refine ⟨by simp, ?_, ?_⟩
      · rw [digitsOK_append]
        refine ⟨hdacc, ?_⟩
        intro x hx
        rw [List.mem_singleton] at hx
        subst hx
        exact hdd
      · intro habs
        exfalso
        apply hheadne
        cases acc with
        | nil =>
          simp only [List.nil_append, List.headI] at habs ⊢
          exact habs
        | cons c r =>
          rw [headI_append_left (by simp)] at habs
          rw [headI_append_left (by simp)]
          exact habs
    simp only [buildDiff]
    by_cases hge2 : valN bv ≤ valN (acc ++ [d])
    · rw [if_pos ((bigGe_iff hacc2 hbv).mpr hge2)]
      refine ⟨acc ++ [d], rest, rfl, by rw [List.append_assoc]; rfl, hacc2, hge2, ?_⟩
      rw [valN_concat]
      omega
    · rw [if_neg (fun h => hge2 ((bigGe_iff hacc2 hbv).mp h))]
      have hlt2 : valN (acc ++ [d]) < valN bv := by omega
      obtain ⟨pre, rest2, heq, hsplit, hc, h1, h2⟩ :=
        ih (acc ++ [d]) (by rw [List.append_assoc, List.singleton_append]; exact hcm)
          hlt2 (by rw [List.append_assoc, List.singleton_append]; exact hge)
      refine ⟨pre, rest2, heq, ?_, hc, h1, h2⟩
      rw [List.append_assoc, List.singleton_append] at hsplit
      exact hsplit

theorem subCount_spec {bv : List Int} (hbv : CanonMag bv) (hb1 : 1 ≤ valN bv) :
    ∀ (fuel : Nat) (D : List Int) (c : Int), CanonMag D → valN bv ≤ valN D →
      (valN D).toNat ≤ fuel →
      ∃ r, subCount ⟨true, bv⟩ fuel ⟨true, D⟩ c =
          some (⟨true, r⟩, c + valN D / valN bv - 1) ∧
        CanonMag r ∧ valN r = valN D % valN bv := by
  intro fuel
  induction fuel with
  | zero =>
    intro D c hD hge hf
    exfalso
    omega
  | succ f ih =>
    intro D c hD hge hf
    obtain ⟨r1, hr1eq, hr1c, hr1v⟩ := subF_mag 3 hD hbv hge
    have hstep : subCount ⟨true, bv⟩ (f + 1) ⟨true, D⟩ c =
        if bigLt ⟨true, r1⟩ ⟨true, bv⟩ then some (⟨true, r1⟩, c)
        else subCount ⟨true, bv⟩ f ⟨true, r1⟩ (c + 1) := by
      rw [subCount, hr1eq]
    rw [hstep]
    by_cases hlt : valN r1 < valN bv
    · rw [if_pos ((bigLt_iff hr1c hbv).mpr hlt)]
      have hr10 : 0 ≤ valN r1 := valN_nonneg hr1c.2.1
      have hdiv : valN D / valN bv = 1 := by
        rw [show valN D = valN r1 + valN bv * 1 from by omega,
          Int.add_mul_ediv_left _ _ (by omega : valN bv ≠ 0),
          Int.ediv_eq_zero_of_lt hr10 hlt]
        norm_num
      have hmod : valN D % valN bv = valN r1 := by
        rw [show valN D = valN r1 + valN bv * 1 from by omega,
          Int.add_mul_emod_self_left, Int.emod_eq_of_lt hr10 hlt]
      refine ⟨r1, ?_, hr1c, by omega⟩
      rw [hdiv]
      norm_num
    · rw [if_neg (fun h => hlt ((bigLt_iff hr1c hbv).mp h))]
      have hge2 : valN bv ≤ valN r1 := by omega
      have hf2 : (valN r1).toNat ≤ f := by omega
      obtain ⟨r, hreq, hrc, hrv⟩ := ih r1 (c + 1) hr1c hge2 hf2
      have hdiveq : valN D / valN bv = valN r1 / valN bv + 1 := by
        rw [show valN D = valN r1 + valN bv * 1 from by omega,
          Int.add_mul_ediv_left _ _ (by omega : valN bv ≠ 0)]
      have hq : c + 1 + valN r1 / valN bv - 1 = c + valN D / valN bv - 1 := by
        rw [hdiveq]
        ring
      rw [hreq, hq]
      refine ⟨r, rfl, hrc, ?_⟩
      rw [hrv, show valN D = valN r1 + valN bv * 1 from by omega,
        Int.add_mul_emod_self_left]

theorem zeroSkip_spec : ∀ (l q : List Int),
    ∃ z rest, l = List.replicate z (0 : Int) ++ rest ∧
      ((rest = [] ∧ zeroSkip q l = Sum.inr (q ++ List.replicate z 0)) ∨
       (rest.headI ≠ 0 ∧ rest ≠ [] ∧
         zeroSkip q l = Sum.inl (q ++ List.replicate z 0, rest))) := by
  intro l
  induction l with
  | nil =>
    intro q
    exact ⟨0, [], by simp, Or.inl ⟨rfl, by simp [zeroSkip]⟩⟩
  | cons d l2 ih =>
    intro q
    by_cases hd : d = 0
    · subst hd
      obtain ⟨z, rest, hsplit, hres⟩ := ih (q ++ [0])
      refine ⟨z + 1, rest, ?_, ?_⟩
      · rw [List.replicate_succ, List.cons_append, hsplit]
      · rw [zeroSkip, if_pos rfl]
        rcases hres with ⟨h1, h2⟩ | ⟨h1, h2, h3⟩
        · left
          refine ⟨h1, ?_⟩
          rw [h2]
          simp [List.replicate_succ, List.append_assoc]
        · right
          refine ⟨h1, h2, ?_⟩
          rw [h3]
          simp [List.replicate_succ, List.append_assoc]
    · refine ⟨0, d :: l2, by simp, Or.inr ⟨by simpa [List.headI] using hd, by simp, ?_⟩⟩
      rw [zeroSkip, if_neg hd]
      simp

theorem appendLoop_spec {bv : List Int} (hbv : CanonMag bv) (hb1 : 1 ≤ valN bv) :
    ∀ (l rest q : List Int), l ≠ [] → DigitsOK l → DigitsOK rest →
      (rest = [] → l.headI ≠ 0) → (rest ≠ [] → rest.headI ≠ 0) →
      valN rest < valN bv →
      (valN (rest ++ l) < valN bv ∧
        appendLoop ⟨true, bv⟩ q rest l =
          some (Sum.inr (q ++ List.replicate l.length 0))) ∨
      (∃ u, 1 ≤ u ∧ u ≤ l.length ∧
        appendLoop ⟨true, bv⟩ q rest l =
          some (Sum.inl (q ++ List.replicate (u - 1) 0, rest ++ l.take u, l.drop u)) ∧
        valN bv ≤ valN (rest ++ l.take u) ∧
        valN (rest ++ l.take u) < 10 * valN bv ∧
        CanonMag (rest ++ l.take u)) := by
  intro l
  induction l with
  | nil => intro rest q h _ _ _ _ _; exact absurd rfl h
  | cons d ds ih =>
    intro rest q _ hdl hdr hre hrne hlt
    have hdd : 0 ≤ d ∧ d ≤ 9 := hdl d (List.mem_cons_self d ds)
    have hheadd : (rest ++ [d]).headI ≠ 0 := by
      rcases eq_or_ne rest [] with hrest | hrest
      · subst hrest
        have h1 := hre rfl
        simp only [List.nil_append, List.headI] at h1 ⊢
        exact h1
      · rw [headI_append_left hrest]
        exact hrne hrest
    have hdrest2 : DigitsOK (rest ++ [d]) := by
      rw [digitsOK_append]
      refine ⟨hdr, ?_⟩
      intro x hx
      rw [List.mem_singleton] at hx
      subst hx
      exact hdd
    have hrest2 : CanonMag (rest ++ [d]) :=
      ⟨by simp, hdrest2, fun habs => absurd habs hheadd⟩
    have hv2 : valN (rest ++ [d]) = 10 * valN rest + d := valN_concat rest d
    simp only [appendLoop]
    by_cases hblt : valN (rest ++ [d]) < valN bv
    · rw [if_pos ((bigLt_iff hrest2 hbv).mpr hblt)]
      cases ds with
      | nil =>
        left
        exact ⟨hblt, rfl⟩
      | cons e l3 =>
        have hih := ih (rest ++ [d]) (q ++ [0]) (by simp)
          (fun x hx => hdl x (List.mem_cons_of_mem d hx)) hdrest2
          (fun h => absurd h (by simp)) (fun _ => hheadd) hblt
        rcases hih with ⟨hval, heq⟩ | ⟨u, hu1, hu2, heq, hbl, hbu, hcm⟩
        · left
          constructor
          · rw [show rest ++ d :: e :: l3 = (rest ++ [d]) ++ e :: l3 from by simp]
            exact hval
          · rw [heq]
            simp [List.replicate_succ, List.append_assoc, List.length_cons]
        · right
          have e1 : (q ++ [0]) ++ List.replicate (u - 1) (0 : Int) =
              q ++ List.replicate (u + 1 - 1) 0 := by
            rw [show u + 1 - 1 = u from rfl, List.append_assoc]
            congr 1
            rw [show u = (u - 1) + 1 from by omega, List.replicate_succ]
            simp
          have e2 : (rest ++ [d]) ++ (e :: l3).take u =
              rest ++ (d :: e :: l3).take (u + 1) := by
            rw [List.take_succ_cons, List.append_assoc, List.singleton_append]
          have e3 : (e :: l3).drop u = (d :: e :: l3).drop (u + 1) := by
            rw [List.drop_succ_cons]
          refine ⟨u + 1, by omega, ?_, ?_, ?_, ?_, ?_⟩
          · simp only [List.length_cons]
            simp only [List.length_cons] at hu2
            omega
          · rw [heq, e1, e2, e3]
          · rw [← e2]
            exact hbl
          · rw [← e2]
            exact hbu
          · rw [← e2]
            exact hcm
    · rw [if_neg (fun h => hblt ((bigLt_iff hrest2 hbv).mp h))]
      right
      refine ⟨1, le_refl 1, by simp, ?_, ?_, ?_, hrest2⟩
      · simp
      · rw [show (d :: ds).take 1 = [d] from rfl]
        omega
      · rw [show (d :: ds).take 1 = [d] from rfl, hv2]
        omega

theorem digitsOK_replicate (z : Nat) : DigitsOK (List.replicate z (0 : Int)) := by
  intro x hx
  rw [List.mem_replicate] at hx
  rw [hx.2]
  norm_num

theorem valN_digit_zeros (c : Int) (e : Nat) (Q : List Int) :
    valN (([c] ++ List.replicate e 0) ++ Q) = c * 10 ^ (e + Q.length) + valN Q := by
  rw [valN_append, valN_append, valN_replicate_zero, List.length_replicate,
    valN_singleton, pow_add]
  ring

theorem divLoop_inl_step {bv : List Int} (hbv : CanonMag bv) (hb1 : 1 ≤ valN bv)
    (f : Nat)
    (ih : ∀ (dv q : List Int), CanonMag dv → valN bv ≤ valN dv →
      (valN dv).toNat ≤ f → ∃ Q, divLoop ⟨true, bv⟩ f q dv = some (q ++ Q) ∧
        DigitsOK Q ∧ Q.headI ≠ 0 ∧ Q ≠ [] ∧ valN Q = valN dv / valN bv)
    {rest2 rem3 : List Int} (q4 : List Int)
    (hA1 : valN bv ≤ valN rest2) (hA2 : valN rest2 < 10 * valN bv)
    (hAcm : CanonMag rest2) (hd3 : DigitsOK rem3)
    (hf : (valN (rest2 ++ rem3)).toNat ≤ f) :
    ∃ Q, (if bigLt ⟨true, rest2 ++ rem3⟩ ⟨true, bv⟩ then some q4
        else divLoop ⟨true, bv⟩ f q4 (rest2 ++ rem3)) = some (q4 ++ Q) ∧
      DigitsOK Q ∧ Q.headI ≠ 0 ∧ Q.length = rem3.length + 1 ∧
      valN Q = valN (rest2 ++ rem3) / valN bv := by
  have h30 : 0 ≤ valN rem3 := valN_nonneg hd3
  have h3lt : valN rem3 < 10 ^ rem3.length := valN_lt_pow hd3
  have hp0 : (0 : Int) < 10 ^ rem3.length := by positivity
  have hvnew : valN (rest2 ++ rem3) =
      valN rest2 * 10 ^ rem3.length + valN rem3 := valN_append _ _
  have hge : valN bv ≤ valN (rest2 ++ rem3) := by nlinarith
  have hne2 : rest2 ≠ [] := hAcm.1
  have hhd : rest2.headI ≠ 0 := by
    intro h
    have h2 := hAcm.2.2 h
    rw [h2, valN_singleton] at hA1
    omega
  have hcm : CanonMag (rest2 ++ rem3) := by
    refine ⟨fun h => hne2 (List.append_eq_nil.mp h).1, ?_, ?_⟩
    · exact digitsOK_append.mpr ⟨hAcm.2.1, hd3⟩
    · intro h
      rw [headI_append_left hne2] at h
      exact absurd h hhd
  have hnotlt : ¬ (bigLt ⟨true, rest2 ++ rem3⟩ ⟨true, bv⟩ = true) := by
    rw [bigLt_iff hcm hbv]
    omega
  rw [if_neg hnotlt]
  obtain ⟨Q, hQ, hQd, hQh, hQne, hQv⟩ := ih (rest2 ++ rem3) q4 hcm hge hf
  refine ⟨Q, hQ, hQd, hQh, ?_, hQv⟩
  have hQcm : CanonMag Q := ⟨hQne, hQd, fun h => absurd h hQh⟩
  have hlow : 10 ^ rem3.length ≤ valN Q := by
    rw [hQv, Int.le_ediv_iff_mul_le (show (0 : Int) < valN bv by omega), hvnew]
    nlinarith [mul_le_mul_of_nonneg_right hA1 (le_of_lt hp0)]
  have hhigh : valN Q < 10 ^ (rem3.length + 1) := by
    rw [hQv, Int.ediv_lt_iff_lt_mul (show (0 : Int) < valN bv by omega), hvnew, pow_succ]
    nlinarith [mul_le_mul_of_nonneg_right
      (show valN rest2 ≤ 10 * valN bv - 1 by omega) (le_of_lt hp0)]
  exact canonMag_length_eq hQcm hQh hlow hhigh

theorem divLoop_spec {bv : List Int} (hbv : CanonMag bv) (hb1 : 1 ≤ valN bv) :
    ∀ (fuel : Nat) (dv q : List Int), CanonMag dv → valN bv ≤ valN dv →
      (valN dv).toNat ≤ fuel →
      ∃ Q, divLoop ⟨true, bv⟩ fuel q dv = some (q ++ Q) ∧ DigitsOK Q ∧
        Q.headI ≠ 0 ∧ Q ≠ [] ∧ valN Q = valN dv / valN bv := by
  intro fuel
  induction fuel with
  | zero =>
    intro dv q hdv hge hf
    exfalso
    omega
  | succ f ih =>
    intro dv q hdv hge hf
    obtain ⟨dd, rem, hbd, hsplit, hddc, hddge, hddlt⟩ :=
      buildDiff_go hbv dv [] (by simpa using hdv)
        (by rw [show valN ([] : List Int) = 0 from rfl]; omega)
        (by simpa using hge)
    simp only [List.nil_append] at hsplit
    obtain ⟨diffv, hsc, hdiffc, hdiffv⟩ :=
      subCount_spec hbv hb1 ((valN dd).toNat + 1) dd 1 hddc hddge (by omega)
    have hcv : (1 : Int) + valN dd / valN bv - 1 = valN dd / valN bv := by ring
    rw [hcv] at hsc
    obtain ⟨hc1, hc9, hr0, hrB, hddeq⟩ :=
      div_digit_bounds (show (0 : Int) < valN bv by omega) hddge hddlt
    by_cases hrem : rem = []
    · subst hrem
      rw [List.append_nil] at hsplit
      subst hsplit
      refine ⟨[valN dv / valN bv], ?_, ?_, ?_, by simp, ?_⟩
      · simp only [divLoop, hbd, hsc]
        rw [if_pos trivial]
      · intro x hx
        rw [List.mem_singleton] at hx
        subst hx
        exact ⟨by omega, by omega⟩
      · simp only [List.headI]
        omega
      · rw [valN_singleton]
    · have hddig : DigitsOK dd ∧ DigitsOK rem := digitsOK_append.mp (hsplit ▸ hdv.2.1)
      have hrem0 : 0 ≤ valN rem := valN_nonneg hddig.2
      have hremlt : valN rem < 10 ^ rem.length := valN_lt_pow hddig.2
      have hp0 : (0 : Int) < 10 ^ rem.length := by positivity
      have hdvval : valN dv = valN dd * 10 ^ rem.length + valN rem := by
        rw [hsplit, valN_append]
      have hdq : valN dv / valN bv = valN dd / valN bv * 10 ^ rem.length +
          (valN dd % valN bv * 10 ^ rem.length + valN rem) / valN bv := by
        have e : valN dv = (valN dd % valN bv * 10 ^ rem.length + valN rem) +
            valN bv * (valN dd / valN bv * 10 ^ rem.length) := by
          rw [hdvval]
          linear_combination (10 ^ rem.length : Int) * hddeq
        rw [e, Int.add_mul_ediv_left _ _ (show valN bv ≠ 0 by omega)]
        ring
      have hD'0 : 0 ≤ valN dd % valN bv * 10 ^ rem.length + valN rem := by
        have := mul_nonneg hr0 (le_of_lt hp0)
        omega
      have hRdd : valN dd % valN bv < valN dd := by nlinarith
      have hdec : valN dd % valN bv * 10 ^ rem.length + valN rem < valN dv := by
        rw [hdvval]
        exact add_lt_add_right (mul_lt_mul_of_pos_right hRdd hp0) _
      by_cases hz : diffv = [0]
      · have hR0 : valN dd % valN bv = 0 := by
          rw [hz, valN_singleton] at hdiffv
          omega
        obtain ⟨z, rest', hsplit2, hres⟩ := zeroSkip_spec rem (q ++ [valN dd / valN bv])
        have hzlen : rem.length = z + rest'.length := by
          rw [hsplit2]
          simp
        have hremval : valN rem = valN rest' := by
          rw [hsplit2, valN_replicate_append]
        rcases hres with ⟨hre', hzeq⟩ | ⟨hrh', hrne', hzeq⟩
        · subst hre'
          have hzm : z = rem.length := by
            rw [hzlen]
            simp
          have hrv0 : valN rem = 0 := by
            rw [hremval]
            rfl
          refine ⟨[valN dd / valN bv] ++ List.replicate rem.length 0, ?_, ?_, ?_,
            by simp, ?_⟩
          · simp only [divLoop, hbd, hsc]
            rw [if_neg hrem,
              if_pos (show (⟨true, diffv⟩ : BigInt) = zeroBig by rw [hz]; rfl),
              hzeq, hzm]
            simp [List.append_assoc]
          · rw [digitsOK_append]
            constructor
            · intro x hx
              rw [List.mem_singleton] at hx
              subst hx
              exact ⟨by omega, by omega⟩
            · exact digitsOK_replicate _
          · rw [headI_append_left (by simp)]
            simp only [List.headI]
            omega
          · rw [valN_append, valN_replicate_zero, List.length_replicate,
              valN_singleton, hdq, hR0, hrv0]
            norm_num
        · have hd' : DigitsOK rest' := by
            have h2 : DigitsOK rem := hddig.2
            rw [hsplit2, digitsOK_append] at h2
            exact h2.2
          have happ := appendLoop_spec hbv hb1 rest' []
            ((q ++ [valN dd / valN bv]) ++ List.replicate z 0)
            hrne' hd' (fun x hx => absurd hx (List.not_mem_nil x))
            (fun _ => hrh') (fun h => absurd rfl h)
            (by rw [show valN ([] : List Int) = 0 from rfl]; omega)
          rcases happ with ⟨hval, heqA⟩ | ⟨u, hu1, hu2, heqA, hA1, hA2, hAcm⟩
          · refine ⟨[valN dd / valN bv] ++ List.replicate rem.length 0, ?_, ?_, ?_,
              by simp, ?_⟩
            · simp only [divLoop, hbd, hsc]
              rw [if_neg hrem,
                if_pos (show (⟨true, diffv⟩ : BigInt) = zeroBig by rw [hz]; rfl)]
              simp only [hzeq, heqA]
              rw [hzlen, List.replicate_add]
              simp [List.append_assoc]
            · rw [digitsOK_append]
              constructor
              · intro x hx
                rw [List.mem_singleton] at hx
                subst hx
                exact ⟨by omega, by omega⟩
              · exact digitsOK_replicate _
            · rw [headI_append_left (by simp)]
              simp only [List.headI]
              omega
            · have hv' : valN rem < valN bv := by
                rw [hremval]
                simpa using hval
              rw [valN_append, valN_replicate_zero, List.length_replicate,
                valN_singleton, hdq, hR0,
                show (0 : Int) * 10 ^ rem.length + valN rem = valN rem from by ring,
                Int.ediv_eq_zero_of_lt hrem0 hv']
          · simp only [List.nil_append] at heqA hA1 hA2 hAcm
            have hd3 : DigitsOK (rest'.drop u) := digitsOK_drop hd' u
            have hrvlt : valN rest' < valN dv := by
              rw [← hremval]
              have h2 : valN dd % valN bv * 10 ^ rem.length = 0 := by
                rw [hR0]
                ring
              omega
            have hfd : (valN (rest'.take u ++ rest'.drop u)).toNat ≤ f := by
              rw [List.take_append_drop]
              rw [← hremval] at *
              omega
            obtain ⟨Q2, hQeq, hQd, hQh, hQlen, hQv⟩ :=
              divLoop_inl_step hbv hb1 f ih
                (((q ++ [valN dd / valN bv]) ++ List.replicate z 0) ++
                  List.replicate (u - 1) 0)
                hA1 hA2 hAcm hd3 hfd
            refine ⟨[valN dd / valN bv] ++ List.replicate z 0 ++
              List.replicate (u - 1) 0 ++ Q2, ?_, ?_, ?_, by simp, ?_⟩
            · simp only [divLoop, hbd, hsc]
              rw [if_neg hrem,
                if_pos (show (⟨true, diffv⟩ : BigInt) = zeroBig by rw [hz]; rfl)]
              simp only [hzeq, heqA]
              rw [hQeq]
              simp [List.append_assoc]
            · rw [digitsOK_append, digitsOK_append, digitsOK_append]
              refine ⟨⟨⟨?_, digitsOK_replicate _⟩, digitsOK_replicate _⟩, hQd⟩
              intro x hx
              rw [List.mem_singleton] at hx
              subst hx
              exact ⟨by omega, by omega⟩
            · rw [headI_append_left (by simp), headI_append_left (by simp),
                headI_append_left (by simp)]
              simp only [List.headI]
              omega
            · have hsh : [valN dd / valN bv] ++ List.replicate z 0 ++
                  List.replicate (u - 1) 0 ++ Q2 =
                  ([valN dd / valN bv] ++ List.replicate (z + (u - 1)) 0) ++ Q2 := by
                rw [List.replicate_add]
                simp [List.append_assoc]
              rw [List.take_append_drop] at hQv
              have hexp : z + (u - 1) + Q2.length = rem.length := by
                rw [hQlen, List.length_drop]
                omega
              rw [hsh, valN_digit_zeros, hexp, hQv, hdq, hR0, hremval,
                show (0 : Int) * 10 ^ rem.length + valN rest' = valN rest' from by ring]
      · have hdne : diffv.headI ≠ 0 := fun h => hz (hdiffc.2.2 h)
        have hdnil : diffv ≠ [] := hdiffc.1
        have happ := appendLoop_spec hbv hb1 rem diffv (q ++ [valN dd / valN bv])
          hrem hddig.2 hdiffc.2.1 (fun h => absurd h hdnil) (fun _ => hdne)
          (by rw [hdiffv]; exact hrB)
        have hD'eq : valN (diffv ++ rem) =
            valN dd % valN bv * 10 ^ rem.length + valN rem := by
          rw [valN_append, hdiffv]
        rcases happ with ⟨hval, heqA⟩ | ⟨u, hu1, hu2, heqA, hA1, hA2, hAcm⟩
        · refine ⟨[valN dd / valN bv] ++ List.replicate rem.length 0, ?_, ?_, ?_,
            by simp, ?_⟩
          · simp only [divLoop, hbd, hsc]
            rw [if_neg hrem, if_neg (fun h => hz (congrArg BigInt.value h))]
            simp only [heqA]
            simp [List.append_assoc]
          · rw [digitsOK_append]
            constructor
            · intro x hx
              rw [List.mem_singleton] at hx
              subst hx
              exact ⟨by omega, by omega⟩
            · exact digitsOK_replicate _
          · rw [headI_append_left (by simp)]
            simp only [List.headI]
            omega
          · have hDpos : 0 ≤ valN (diffv ++ rem) :=
              valN_nonneg (digitsOK_append.mpr ⟨hdiffc.2.1, hddig.2⟩)
            rw [valN_append, valN_replicate_zero, List.length_replicate,
              valN_singleton, hdq, ← hD'eq, Int.ediv_eq_zero_of_lt hDpos hval]
        · have hsame : (diffv ++ rem.take u) ++ rem.drop u = diffv ++ rem := by
            rw [List.append_assoc, List.take_append_drop]
          have hd3 : DigitsOK (rem.drop u) := digitsOK_drop hddig.2 u
          have hfd : (valN ((diffv ++ rem.take u) ++ rem.drop u)).toNat ≤ f := by
            rw [hsame, hD'eq]
            omega
          obtain ⟨Q2, hQeq, hQd, hQh, hQlen, hQv⟩ :=
            divLoop_inl_step hbv hb1 f ih
              ((q ++ [valN dd / valN bv]) ++ List.replicate (u - 1) 0)
              hA1 hA2 hAcm hd3 hfd
          refine ⟨[valN dd / valN bv] ++ List.replicate (u - 1) 0 ++ Q2, ?_, ?_, ?_,
            by simp, ?_⟩
          · simp only [divLoop, hbd, hsc]
            rw [if_neg hrem, if_neg (fun h => hz (congrArg BigInt.value h))]
            simp only [heqA]
            rw [hQeq]
            simp [List.append_assoc]
          · rw [digitsOK_append, digitsOK_append]
            refine ⟨⟨?_, digitsOK_replicate _⟩, hQd⟩
            intro x hx
            rw [List.mem_singleton] at hx
            subst hx
            exact ⟨by omega, by omega⟩
          · rw [headI_append_left (by simp), headI_append_left (by simp)]
            simp only [List.headI]
            omega
          · rw [hsame, hD'eq] at hQv
            have hexp : u - 1 + Q2.length = rem.length := by
              rw [hQlen, List.length_drop]
              omega
            rw [valN_digit_zeros, hexp, hQv, hdq]

theorem magLt_iff {P Q : List Int} (hP : CanonMag P) (hQ : CanonMag Q) :
    (P.length < Q.length ∨ (P.length = Q.length ∧ listCmp P Q = Ordering.lt)) ↔
      valN P < valN Q := by
  constructor
  · rintro (h | ⟨h1, h2⟩)
    · exact valN_lt_of_length_lt hP hQ h
    · rw [listCmp_valN hP.2.1 hQ.2.1 h1] at h2
      exact compare_lt_iff_lt.mp h2
  · intro h
    rcases Nat.lt_trichotomy P.length Q.length with hl | hl | hl
    · exact Or.inl hl
    · right
      exact ⟨hl, by rw [listCmp_valN hP.2.1 hQ.2.1 hl]; exact compare_lt_iff_lt.mpr h⟩
    · exact absurd (valN_lt_of_length_lt hQ hP hl) (by omega)

theorem divF_mag {P Q : List Int} (hP : CanonMag P) (hQ : CanonMag Q)
    (hQ0 : Q ≠ [0]) (f : Nat) :
    ∃ r, divF (f + 1) ⟨true, P⟩ ⟨true, Q⟩ = DivResult.ok ⟨true, r⟩ ∧
      CanonMag r ∧ valN r = valN P / valN Q := by
  have hbzB : (⟨true, Q⟩ : BigInt) ≠ zeroBig := fun h => hQ0 (congrArg BigInt.value h)
  have hQ1 : 1 ≤ valN Q := canonMag_one_le hQ hQ0
  have hP0 : 0 ≤ valN P := valN_nonneg hP.2.1
  by_cases h1 : Q = [1]
  · refine ⟨P, ?_, hP, ?_⟩
    · simp only [divF]
      rw [if_neg hbzB, if_pos h1]
      rfl
    · rw [h1, valN_singleton, Int.ediv_one]
  · by_cases h2 : P.length < Q.length ∨
        (P.length = Q.length ∧ listCmp P Q = Ordering.lt)
    · refine ⟨[0], ?_, canonMag_zero, ?_⟩
      · simp only [divF]
        rw [if_neg hbzB, if_neg h1, if_pos h2]
        rfl
      · rw [Int.ediv_eq_zero_of_lt hP0 ((magLt_iff hP hQ).mp h2), valN_singleton]
    · by_cases h3 : P = Q
      · refine ⟨[1], ?_, ?_, ?_⟩
        · simp only [divF]
          rw [if_neg hbzB, if_neg h1, if_neg h2, if_pos h3]
          rfl
        · refine ⟨by simp, ?_, ?_⟩
          · intro x hx
            rw [List.mem_singleton] at hx
            subst hx
            norm_num
          · intro h
            simp only [List.headI] at h
            norm_num at h
        · rw [h3, Int.ediv_self (show valN Q ≠ 0 by omega), valN_singleton]
      · have hQP : valN Q < valN P := by
          have hle : ¬ valN P < valN Q := fun h => h2 ((magLt_iff hP hQ).mpr h)
          have hne : valN P ≠ valN Q := fun h => h3 (canonMag_inj hP hQ h)
          omega
        obtain ⟨Q2, hdl, hd, hh, hne, hv⟩ :=
          divLoop_spec hQ hQ1 ((valN P).toNat + 1) P [] hP (le_of_lt hQP) (by omega)
        refine ⟨Q2, ?_, ⟨hne, hd, fun h => absurd h hh⟩, hv⟩
        simp only [divF]
        rw [if_neg hbzB, if_neg h1, if_neg h2, if_neg h3, if_neg (by decide)]
        rw [hdl]
        rfl

theorem tdiv_sign_combo (sa sb : Bool) (x y : Int) (hx : 0 ≤ x) (hy : 0 ≤ y) :
    Int.tdiv ((if sa then 1 else -1) * x) ((if sb then 1 else -1) * y) =
      (if (sa == sb) then (1 : Int) else -1) * (x / y) := by
  cases sa <;> cases sb <;>
    simp [Int.neg_tdiv, Int.tdiv_neg, Int.div_eq_ediv hx hy]

theorem divF_result (pa pb : Bool) {va vb : List Int} (hva : CanonMag va)
    (hvb : CanonMag vb) (hbz : vb ≠ [0]) :
    ∃ r, divF 2 ⟨pa, va⟩ ⟨pb, vb⟩ = DivResult.ok r ∧
      valB r = (if pa == pb then (1 : Int) else -1) * (valN va / valN vb) := by
  have hbzB : (⟨pb, vb⟩ : BigInt) ≠ zeroBig := fun h => hbz (congrArg BigInt.value h)
  have hv1 : 1 ≤ valN vb := canonMag_one_le hvb hbz
  have hva0 : 0 ≤ valN va := valN_nonneg hva.2.1
  by_cases hpp : pa = true ∧ pb = true
  · obtain ⟨h1, h2⟩ := hpp
    subst h1
    subst h2
    obtain ⟨r, heq, hrc, hrv⟩ := divF_mag hva hvb hbz 1
    refine ⟨⟨true, r⟩, heq, ?_⟩
    simp [valB, hrv]
  · have hmix : (!(pa == pb) || !pa) = true := by
      cases pa <;> cases pb <;> simp_all
    by_cases h1 : vb = [1]
    · refine ⟨⟨pa == pb, va⟩, ?_, ?_⟩
      · simp only [divF]
        rw [if_neg hbzB, if_pos h1]
      · rw [h1, valN_singleton, Int.ediv_one]
        simp [valB]
    · by_cases h2 : va.length < vb.length ∨
          (va.length = vb.length ∧ listCmp va vb = Ordering.lt)
      · refine ⟨zeroBig, ?_, ?_⟩
        · simp only [divF]
          rw [if_neg hbzB, if_neg h1, if_pos h2]
        · rw [Int.ediv_eq_zero_of_lt hva0 ((magLt_iff hva hvb).mp h2)]
          simp [valB, zeroBig, valN_singleton]
      · by_cases h3 : va = vb
        · refine ⟨⟨pa == pb, [1]⟩, ?_, ?_⟩
          · simp only [divF]
            rw [if_neg hbzB, if_neg h1, if_neg h2, if_pos h3]
          · rw [h3, Int.ediv_self (show valN vb ≠ 0 by omega)]
            simp [valB, valN_singleton]
        · have hQP : valN vb < valN va := by
            have hle : ¬ valN va < valN vb := fun h => h2 ((magLt_iff hva hvb).mpr h)
            have hne : valN va ≠ valN vb := fun h => h3 (canonMag_inj hva hvb h)
            omega
          obtain ⟨Q2, hdl, hd, hh, hne, hv⟩ :=
            divLoop_spec hvb hv1 ((valN va).toNat + 1) va [] hva (le_of_lt hQP)
              (by omega)
          refine ⟨⟨pa == pb, Q2⟩, ?_, ?_⟩
          · simp only [divF, absB]
            rw [if_neg hbzB, if_neg h1, if_neg h2, if_neg h3, if_pos hmix,
              if_neg (show (⟨true, vb⟩ : BigInt) = zeroBig → False from
                fun h => hbz (congrArg BigInt.value h)),
              if_neg h1, if_neg h2, if_neg h3, if_neg (by decide), hdl]
            rfl
          · simp [valB, hv]

/-- C4: for canonical operands with a non-zero divisor, `div` succeeds and the
result's value is the mathematical quotient truncated toward zero — the
absolute values are divided and the sign reapplied with no remainder
adjustment. The literal scenario 100 / 3 = 33 is instantiated in the witness. -/
theorem c4_div_truncates (a b : BigInt) (ha : Canonical a) (hb : Canonical b)
    (hbz : b ≠ zeroBig) :
    ∃ r, divB a b = DivResult.ok r ∧ valB r = Int.tdiv (valB a) (valB b) := by
  obtain ⟨pa, va⟩ := a
  obtain ⟨pb, vb⟩ := b
  have hvb0 : vb ≠ [0] := by
    intro h
    apply hbz
    have hp : pb = true := hb.2 h
    subst h
    subst hp
    rfl
  obtain ⟨r, heq, hval⟩ := divF_result pa pb ha.1 hb.1 hvb0
  refine ⟨r, heq, ?_⟩
  rw [hval, show valB ⟨pa, va⟩ = (if pa then (1 : Int) else -1) * valN va from rfl,
    show valB ⟨pb, vb⟩ = (if pb then (1 : Int) else -1) * valN vb from rfl,
    tdiv_sign_combo pa pb _ _ (valN_nonneg ha.1.2.1) (valN_nonneg hb.1.2.1)]

theorem c4_div_truncates_witness :
    (∃ r, divB ⟨true, [1, 0, 0]⟩ ⟨true, [3]⟩ = DivResult.ok r ∧
      valB r = Int.tdiv (valB ⟨true, [1, 0, 0]⟩) (valB ⟨true, [3]⟩)) ∧
    divB ⟨true, [1, 0, 0]⟩ ⟨true, [3]⟩ = DivResult.ok ⟨true, [3, 3]⟩ :=
  ⟨c4_div_truncates ⟨true, [1, 0, 0]⟩ ⟨true, [3]⟩ (by decide) (by decide) (by decide),
    by decide⟩

theorem subF_step (f : Nat) (pa pb : Bool) (va vb : List Int) :
    subF (f + 1) ⟨pa, va⟩ ⟨pb, vb⟩ =
      (if (⟨pa, va⟩ : BigInt) = ⟨pb, vb⟩ then some zeroBig
      else if pa ≠ pb then
        if pa then addF f ⟨pa, va⟩ (negB ⟨pb, vb⟩)
        else (addF f ⟨pb, vb⟩ (negB ⟨pa, va⟩)).map negB
      else if va.length < vb.length ∨
          (va.length = vb.length ∧ listCmp va vb = Ordering.lt) then
        (subF f ⟨true, vb⟩ ⟨true, va⟩).map (fun r => ⟨!pa, r.value⟩)
      else if pa = false then
        (subF f ⟨true, va⟩ ⟨true, vb⟩).map (fun r => ⟨false, r.value⟩)
      else if va.length = 1 then
        some ⟨true, [va.getD 0 0 - vb.getD 0 0]⟩
      else
        some ⟨true, trimZero (subLoop2 va (subLoop1 va vb (va.length - vb.length)
          (subBuf0 va.length) vb.length) (va.length - vb.length))⟩) := rfl


theorem addF_same_sign (f : Nat) (pa : Bool) (va vb : List Int) :
    ∃ r, addF (f + 1) ⟨pa, va⟩ ⟨pa, vb⟩ = some r := by
  have h : (addF (f + 1) ⟨pa, va⟩ ⟨pa, vb⟩).isSome = true := by
    simp only [addF]
    rw [if_neg (show ¬ (pa ≠ pa) from fun hc => hc rfl)]
    rfl
  exact Option.isSome_iff_exists.mp h

theorem subF_pp_ge (f : Nat) {va vb : List Int}
    (hno : ¬(va.length < vb.length ∨
      (va.length = vb.length ∧ listCmp va vb = Ordering.lt))) :
    ∃ r, subF (f + 1) ⟨true, va⟩ ⟨true, vb⟩ = some r := by
  have h : (subF (f + 1) ⟨true, va⟩ ⟨true, vb⟩).isSome = true := by
    rw [subF_step]
    by_cases heq : (⟨true, va⟩ : BigInt) = ⟨true, vb⟩
    · rw [if_pos heq]
      rfl
    · rw [if_neg heq, if_neg (show ¬ (true ≠ true) from fun hc => hc rfl), if_neg hno,
        if_neg (show ¬ (true = false) by decide)]
      by_cases hl : va.length = 1
      · rw [if_pos hl]
        rfl
      · rw [if_neg hl]
        rfl
  exact Option.isSome_iff_exists.mp h

theorem subF_pp (f : Nat) {va vb : List Int} (hva : CanonMag va) (hvb : CanonMag vb) :
    ∃ r, subF (f + 1 + 1) ⟨true, va⟩ ⟨true, vb⟩ = some r := by
  by_cases h2 : va.length < vb.length ∨
      (va.length = vb.length ∧ listCmp va vb = Ordering.lt)
  · have h : (subF (f + 1 + 1) ⟨true, va⟩ ⟨true, vb⟩).isSome = true := by
      rw [subF_step]
      by_cases heq : (⟨true, va⟩ : BigInt) = ⟨true, vb⟩
      · rw [if_pos heq]
        rfl
      · rw [if_neg heq, if_neg (show ¬ (true ≠ true) from fun hc => hc rfl), if_pos h2]
        have hno : ¬(vb.length < va.length ∨
            (vb.length = va.length ∧ listCmp vb va = Ordering.lt)) := by
          intro hc
          exact absurd ((magLt_iff hvb hva).mp hc)
            (by have := (magLt_iff hva hvb).mp h2; omega)
        obtain ⟨r, hr⟩ := subF_pp_ge f hno
        rw [hr]
        rfl
    exact Option.isSome_iff_exists.mp h
  · exact subF_pp_ge (f + 1) h2


theorem negB_false {v : List Int} (h : v ≠ [0]) :
    negB ⟨false, v⟩ = ⟨true, v⟩ := by
  simp only [negB]
  rw [if_neg h]
  rfl

theorem subF_total (a b : BigInt) (ha : Canonical a) (hb : Canonical b) :
    ∃ r, subF 4 a b = some r := by
  obtain ⟨pa, va⟩ := a
  obtain ⟨pb, vb⟩ := b
  cases pa
  · cases pb
    · have h : (subF 4 ⟨false, va⟩ ⟨false, vb⟩).isSome = true := by
        rw [show (4 : Nat) = 3 + 1 from rfl, subF_step]
        by_cases heq : (⟨false, va⟩ : BigInt) = ⟨false, vb⟩
        · rw [if_pos heq]
          rfl
        · rw [if_neg heq, if_neg (show ¬ (false ≠ false) from fun hc => hc rfl)]
          by_cases h2 : va.length < vb.length ∨
              (va.length = vb.length ∧ listCmp va vb = Ordering.lt)
          · rw [if_pos h2]
            obtain ⟨r, hr⟩ := subF_pp 1 hb.1 ha.1
            rw [show (3 : Nat) = 1 + 1 + 1 from rfl, hr]
            rfl
          · rw [if_neg h2, if_pos (show false = false from rfl)]
            obtain ⟨r, hr⟩ := subF_pp 1 ha.1 hb.1
            rw [show (3 : Nat) = 1 + 1 + 1 from rfl, hr]
            rfl
      exact Option.isSome_iff_exists.mp h
    · have hva0 : va ≠ [0] := by
        intro hv
        have h2 : false = true := ha.2 hv
        exact absurd h2 (by decide)
      have h : (subF 4 ⟨false, va⟩ ⟨true, vb⟩).isSome = true := by
        rw [show (4 : Nat) = 3 + 1 from rfl, subF_step,
          if_neg (show (⟨false, va⟩ : BigInt) ≠ ⟨true, vb⟩ by
            intro hc
            injection hc with h1 h2
            exact absurd h1 (by decide)),
          if_pos (show (false ≠ true) by decide),
          if_neg (show ¬ (false = true) by decide),
          negB_false hva0]
        obtain ⟨r, hr⟩ := addF_same_sign 2 true vb va
        rw [show (3 : Nat) = 2 + 1 from rfl, hr]
        rfl
      exact Option.isSome_iff_exists.mp h
  · cases pb
    · have hvb0 : vb ≠ [0] := by
        intro hv
        have h2 : false = true := hb.2 hv
        exact absurd h2 (by decide)
      have h : (subF 4 ⟨true, va⟩ ⟨false, vb⟩).isSome = true := by
        rw [show (4 : Nat) = 3 + 1 from rfl, subF_step,
          if_neg (show (⟨true, va⟩ : BigInt) ≠ ⟨false, vb⟩ by
            intro hc
            injection hc with h1 h2
            exact absurd h1 (by decide)),
          if_pos (show (true ≠ false) by decide),
          if_pos (show true = true from rfl),
          negB_false hvb0]
        obtain ⟨r, hr⟩ := addF_same_sign 2 true va vb
        rw [show (3 : Nat) = 2 + 1 from rfl, hr]
        rfl
      exact Option.isSome_iff_exists.mp h
    · exact subF_pp 2 ha.1 hb.1

theorem addF_total (a b : BigInt) (ha : Canonical a) (hb : Canonical b) :
    ∃ r, addF 4 a b = some r := by
  obtain ⟨pa, va⟩ := a
  obtain ⟨pb, vb⟩ := b
  cases pa
  · cases pb
    · exact addF_same_sign 3 false va vb
    · have hva0 : va ≠ [0] := by
        intro hv
        have h2 : false = true := ha.2 hv
        exact absurd h2 (by decide)
      have h : (addF 4 ⟨false, va⟩ ⟨true, vb⟩).isSome = true := by
        simp only [addF]
        rw [if_pos (show (false ≠ true) by decide),
          if_neg (show ¬ (false = true) by decide),
          negB_false hva0]
        obtain ⟨r, hr⟩ := subF_pp 1 hb.1 ha.1
        rw [show (3 : Nat) = 1 + 1 + 1 from rfl, hr]
        rfl
      exact Option.isSome_iff_exists.mp h
  · cases pb
    · have hvb0 : vb ≠ [0] := by
        intro hv
        have h2 : false = true := hb.2 hv
        exact absurd h2 (by decide)
      have h : (addF 4 ⟨true, va⟩ ⟨false, vb⟩).isSome = true := by
        simp only [addF]
        rw [if_pos (show (true ≠ false) by decide),
          if_pos trivial,
          negB_false hvb0]
        obtain ⟨r, hr⟩ := subF_pp 1 ha.1 hb.1
        rw [show (3 : Nat) = 1 + 1 + 1 from rfl, hr]
        rfl
      exact Option.isSome_iff_exists.mp h
    · exact addF_same_sign 3 true va vb

/-- C10: on canonical operands every arithmetic operation terminates — the
add/sub sign delegation bottoms out within the fuel bound 4, multiplication is
a total function, and division with a non-zero divisor runs its loops to
completion and returns a quotient (no fuel exhaustion, no index panic). -/
theorem c10_operations_total (a b : BigInt) (ha : Canonical a) (hb : Canonical b) :
    (∃ r, addB a b = some r) ∧ (∃ r, subB a b = some r) ∧
      (∃ r, mulB a b = r) ∧ (b ≠ zeroBig → ∃ r, divB a b = DivResult.ok r) := by
  refine ⟨addF_total a b ha hb, subF_total a b ha hb, ⟨mulB a b, rfl⟩, ?_⟩
  intro hbz
  obtain ⟨pa, va⟩ := a
  obtain ⟨pb, vb⟩ := b
  have hvb0 : vb ≠ [0] := by
    intro h
    apply hbz
    have hp : pb = true := hb.2 h
    subst h
    subst hp
    rfl
  obtain ⟨r, heq, _⟩ := divF_result pa pb ha.1 hb.1 hvb0
  exact ⟨r, heq⟩

theorem c10_operations_total_witness :
    (∃ r, addB ⟨true, [7]⟩ ⟨false, [1, 2]⟩ = some r) ∧
      (∃ r, subB ⟨true, [7]⟩ ⟨false, [1, 2]⟩ = some r) ∧
      (∃ r, mulB ⟨true, [7]⟩ ⟨false, [1, 2]⟩ = r) ∧
      (⟨false, [1, 2]⟩ ≠ zeroBig →
        ∃ r, divB ⟨true, [7]⟩ ⟨false, [1, 2]⟩ = DivResult.ok r) :=
  c10_operations_total ⟨true, [7]⟩ ⟨false, [1, 2]⟩ (by decide) (by decide)
